import Mathlib

/-!
Verification of the anyheart backend core against its specification.

The Python sources under `backend/src` are shallowly embedded here:
strings become `List Char`, `re`-based scanning becomes explicit
recursive scanners, the in-memory database becomes an association list,
and fallible operations return `Option`/`Except`.  All definitions are
executable so that concrete documents can be pushed through the embedded
pipeline with `decide`.
-/

namespace Anyheart

/-! ## Basic string machinery (Python `str` operations over `List Char`) -/

/-- ASCII lowering, the behaviour of Python `str.lower` / `re.IGNORECASE`
on the ASCII tag names used by the code. -/
def lowerChar (c : Char) : Char :=
  if 'A' ≤ c ∧ c ≤ 'Z' then Char.ofNat (c.toNat + 32) else c

def lowerL (s : List Char) : List Char := s.map lowerChar

/-- Does `pat` occur somewhere in `s` as a contiguous substring?
Mirrors Python `pat in s`. -/
def occursIn (pat : List Char) : List Char → Bool
  | [] => pat.isPrefixOf ([] : List Char)
  | c :: rest => pat.isPrefixOf (c :: rest) || occursIn pat rest

/-- Index of the first occurrence of `pat` in `s` (Python `str.find`). -/
def findFirst (pat : List Char) : List Char → Option Nat
  | [] => if pat.isPrefixOf ([] : List Char) then some 0 else none
  | c :: rest =>
    if pat.isPrefixOf (c :: rest) then some 0
    else (findFirst pat rest).map (· + 1)

/-- Split `s` around the first occurrence of `pat`. -/
def splitFirst (pat s : List Char) : Option (List Char × List Char) :=
  (findFirst pat s).map (fun i => (s.take i, s.drop (i + pat.length)))

/-- Fuelled worker for `pyReplace`. -/
def replaceAllGo (pat rep : List Char) : Nat → List Char → List Char
  | 0, s => s
  | fuel + 1, s =>
    match findFirst pat s with
    | none => s
    | some i => s.take i ++ rep ++ replaceAllGo pat rep fuel (s.drop (i + pat.length))

/-- Python `s.replace(pat, rep)`: replace every occurrence, scanning left to
right over the original string (replacements are not rescanned).  The
call sites in this code base never pass an empty pattern, so that case is
modelled as the identity. -/
def pyReplace (s pat rep : List Char) : List Char :=
  if pat.isEmpty then s else replaceAllGo pat rep s.length s

/-- Fuelled worker for `countOcc`. -/
def countOccGo (pat : List Char) : Nat → List Char → Nat
  | 0, _ => 0
  | fuel + 1, s =>
    match findFirst pat s with
    | none => 0
    | some i => 1 + countOccGo pat fuel (s.drop (i + pat.length))

/-- Number of non-overlapping occurrences of `pat` in `s`, scanning left to
right (Python `str.count`). -/
def countOcc (pat s : List Char) : Nat :=
  if pat.isEmpty then 0 else countOccGo pat s.length s

/-! ## Decimal rendering of counters (Python `str(n)` on naturals) -/

def digitChar (d : Nat) : Char := Char.ofNat (48 + d)

def natDigitsGo : Nat → Nat → List Char
  | 0, _ => []
  | fuel + 1, n =>
    if n < 10 then [digitChar n]
    else natDigitsGo fuel (n / 10) ++ [digitChar (n % 10)]

def natDigits (n : Nat) : List Char := natDigitsGo (n + 1) n

def digitVal (c : Char) : Nat := c.toNat - 48

def digitsVal (l : List Char) : Nat := l.foldl (fun acc c => 10 * acc + digitVal c) 0

/-! ## The content shield: `process_html` / `replacement_apply` (utils.py) -/

/-- The five shielded tag categories, in the fixed order the code applies
them (the iteration order of `tags_to_replace`). -/
inductive TagCat where
  | svg
  | script
  | style
  | meta
  | link
deriving DecidableEq

def tagName : TagCat → List Char
  | .svg => "svg".data
  | .script => "script".data
  | .style => "style".data
  | .meta => "meta".data
  | .link => "link".data

/-- First two characters of the tag name (Python `tag[0]`, `tag[1]`). -/
def tagAbbrev : TagCat → List Char
  | .svg => ['s', 'v']
  | .script => ['s', 'c']
  | .style => ['s', 't']
  | .meta => ['m', 'e']
  | .link => ['l', 'i']

/-- Placeholder token `f"__{tag[0]}{tag[1]}{counter}__"`. -/
def mkToken (c : TagCat) (n : Nat) : List Char :=
  '_' :: '_' :: (tagAbbrev c ++ natDigits n ++ ['_', '_'])

def openTagOf (c : TagCat) : List Char := '<' :: tagName c

def closeTagOf (c : TagCat) : List Char := '<' :: '/' :: (tagName c ++ ['>'])

/-- Match `<tag[^>]*>` (case-insensitively) at the head of `s`; returns the
length of the matched span. -/
def tryMatchVoid (openTag : List Char) (s : List Char) : Option Nat :=
  if (lowerL openTag).isPrefixOf (lowerL s) then
    let rest := s.drop openTag.length
    let attrs := rest.takeWhile (fun c => c ≠ '>')
    if attrs.length < rest.length then some (openTag.length + attrs.length + 1)
    else none
  else none

/-- Match `<tag[^>]*>[\s\S]*?</tag>` (case-insensitively, lazy closing tag)
at the head of `s`; returns the length of the matched span. -/
def tryMatchContainer (openTag closeTag : List Char) (s : List Char) : Option Nat :=
  if (lowerL openTag).isPrefixOf (lowerL s) then
    let rest := s.drop openTag.length
    let attrs := rest.takeWhile (fun c => c ≠ '>')
    if attrs.length < rest.length then
      let body := rest.drop (attrs.length + 1)
      match findFirst (lowerL closeTag) (lowerL body) with
      | some i => some (openTag.length + attrs.length + 1 + i + closeTag.length)
      | none => none
    else none
  else none

def tryMatchTag : TagCat → List Char → Option Nat
  | .meta, s => tryMatchVoid (openTagOf .meta) s
  | .link, s => tryMatchVoid (openTagOf .link) s
  | .svg, s => tryMatchContainer (openTagOf .svg) (closeTagOf .svg) s
  | .script, s => tryMatchContainer (openTagOf .script) (closeTagOf .script) s
  | .style, s => tryMatchContainer (openTagOf .style) (closeTagOf .style) s

/-- A piece of a shielded document: either literal text or a placeholder
token standing for an original fragment. -/
inductive Blk where
  | lit (cs : List Char)
  | ph (t : List Char) (orig : List Char)
deriving DecidableEq

def renderSh : List Blk → List Char
  | [] => []
  | .lit cs :: rest => cs ++ renderSh rest
  | .ph t _ :: rest => t ++ renderSh rest

def renderOrig : List Blk → List Char
  | [] => []
  | .lit cs :: rest => cs ++ renderOrig rest
  | .ph _ o :: rest => o ++ renderOrig rest

def blkEntries : List Blk → List (List Char × List Char)
  | [] => []
  | .lit _ :: rest => blkEntries rest
  | .ph t o :: rest => (t, o) :: blkEntries rest

def segCons (c : Char) : List Blk → List Blk
  | .lit cs :: rest => .lit (c :: cs) :: rest
  | segs => .lit [c] :: segs

/-- One `re.sub` pass for one tag category: scan left to right, replacing
every match with the next numbered token (counter starts at `k`). -/
def scanGo (cat : TagCat) : Nat → Nat → List Char → List Blk
  | 0, _, s => if s.isEmpty then [] else [.lit s]
  | fuel + 1, k, s =>
    match s with
    | [] => []
    | c :: rest =>
      match tryMatchTag cat (c :: rest) with
      | some n =>
        .ph (mkToken cat k) ((c :: rest).take n) :: scanGo cat fuel (k + 1) ((c :: rest).drop n)
      | none => segCons c (scanGo cat fuel k rest)

def shield (cat : TagCat) (s : List Char) : List Char × List (List Char × List Char) :=
  let segs := scanGo cat s.length 1 s
  (renderSh segs, blkEntries segs)

def commentOpen : List Char := "<!--".data

def commentClose : List Char := "-->".data

/-- `re.sub(r"<!--[\s\S]*?-->", "", html)`: delete every comment, matching
the earliest closing `-->` for each `<!--`. -/
def stripCommentsGo : Nat → List Char → List Char
  | 0, s => s
  | fuel + 1, s =>
    match s with
    | [] => []
    | c :: rest =>
      if commentOpen.isPrefixOf (c :: rest) then
        match findFirst commentClose ((c :: rest).drop 4) with
        | some i => stripCommentsGo fuel ((c :: rest).drop (4 + i + 3))
        | none => c :: rest
      else c :: stripCommentsGo fuel rest

def stripComments (s : List Char) : List Char := stripCommentsGo s.length s

def tagOrder : List TagCat := [.svg, .script, .style, .meta, .link]

/-- `process_html` from utils.py: strip comments, then shield each tag
category in order, accumulating the placeholder map in insertion order. -/
def process_html (d : List Char) : List Char × List (List Char × List Char) :=
  tagOrder.foldl
    (fun acc cat =>
      let res := shield cat acc.1
      (res.1, acc.2 ++ res.2))
    (stripComments d, [])

/-- `replacement_apply` from utils.py: for every map entry in insertion
order, replace all occurrences of the token with its original fragment. -/
def replacement_apply (p : List Char) (m : List (List Char × List Char)) : List Char :=
  m.foldl (fun s e => pyReplace s e.1 e.2) p

def phCount : List Blk → Nat
  | [] => 0
  | .lit _ :: rest => phCount rest
  | .ph _ _ :: rest => phCount rest + 1

/-- A run of consecutive tokens for one category, counters starting at 1. -/
def tokenRun (c : TagCat) (m : Nat) : List (List Char) :=
  (List.range m).map (fun i => mkToken c (i + 1))

/-! ### Pipeline decomposition -/

def stageDoc : List TagCat → List Char → List Char
  | [], s => s
  | c :: cs, s => stageDoc cs (shield c s).1

def stageEntries : List TagCat → List Char → List (List Char × List Char)
  | [], _ => []
  | c :: cs, s => (shield c s).2 ++ stageEntries cs (shield c s).1

def stageSpans : List TagCat → List Char → Nat
  | [], _ => 0
  | c :: cs, s => phCount (scanGo c s.length 1 s) + stageSpans cs (shield c s).1

/-- Total number of tag spans replaced by placeholders during one
`process_html` run. -/
def numSpansReplaced (d : List Char) : Nat :=
  stageSpans tagOrder (stripComments d)

/-! ### Restoration through a block decomposition (for the shield
round-trip analysis) -/

/-- Replace by its original fragment every placeholder whose token is
among `ks` (the tokens already restored). -/
def blocksAfter (ks : List (List Char)) (bs : List Blk) : List Blk :=
  bs.map (fun b =>
    match b with
    | .ph t o => if t ∈ ks then .lit o else .ph t o
    | .lit cs => .lit cs)

/-- Turn the placeholder carrying token `t` into its literal fragment. -/
def phToLit (t : List Char) (b : Blk) : Blk :=
  match b with
  | .ph t' o => if t' = t then .lit o else .ph t' o
  | .lit cs => .lit cs

/-- Split a block list at the first placeholder carrying token `t`. -/
def splitAtPh (t : List Char) : List Blk → Option (List Blk × List Char × List Blk)
  | [] => none
  | .ph t' o :: rest =>
    if t' = t then some ([], o, rest)
    else (splitAtPh t rest).map (fun x => (.ph t' o :: x.1, x.2.1, x.2.2))
  | .lit cs :: rest =>
    (splitAtPh t rest).map (fun x => (.lit cs :: x.1, x.2.1, x.2.2))

/-- One restoration step is well behaved: the `j`-th token of the map
occurs in the partially restored document exactly at the position of its
block, and nowhere after it. -/
def stepOK (es : List (List Char × List Char)) (bs : List Blk) (j : Nat) : Bool :=
  match es.get? j with
  | none => false
  | some (t, _) =>
    match splitAtPh t (blocksAfter ((es.take j).map Prod.fst) bs) with
    | none => false
    | some (pre, _, post) =>
      (splitFirst t (renderSh (blocksAfter ((es.take j).map Prod.fst) bs)) ==
          some (renderSh pre, renderSh post))
        && !(occursIn t (renderSh post))

/-- Balancedness of the shielded categories, read off the raw text:
each paired category closes as often as it opens (`meta`/`link` are
void tags and need no closing). -/
def balancedCats (d : List Char) : Bool :=
  (countOcc (lowerL (openTagOf .svg)) (lowerL d) == countOcc (lowerL (closeTagOf .svg)) (lowerL d))
    && (countOcc (lowerL (openTagOf .script)) (lowerL d) == countOcc (lowerL (closeTagOf .script)) (lowerL d))
    && (countOcc (lowerL (openTagOf .style)) (lowerL d) == countOcc (lowerL (closeTagOf .style)) (lowerL d))

/-- `c1Doc` nests one shielded category inside another: the `svg` span
sits inside the `script` span. -/
def c1Doc : List Char := "<script><svg></svg></script>".data

def c1WitnessDoc : List Char := "<p><svg>a</svg><!--x--><style>b</style></p>".data

def c1WitnessBlocks : List Blk :=
  [.lit "<p>".data,
   .ph "__sv1__".data "<svg>a</svg>".data,
   .ph "__st1__".data "<style>b</style>".data,
   .lit "</p>".data]

/-! ## The edit pipeline salvage pass (agent.py `_apply_edit`, lines 143–196) -/

/-- `re.findall`: collect every non-overlapping match, scanning left to
right. -/
def findAllGo (tm : List Char → Option Nat) : Nat → List Char → List (List Char)
  | 0, _ => []
  | fuel + 1, s =>
    match s with
    | [] => []
    | c :: rest =>
      match tm (c :: rest) with
      | some n => (c :: rest).take n :: findAllGo tm fuel ((c :: rest).drop n)
      | none => findAllGo tm fuel rest

/-- `re.findall(r"<script[^>]*>[\s\S]*?</script>", s, re.IGNORECASE)`. -/
def findScripts (s : List Char) : List (List Char) :=
  findAllGo (tryMatchTag .script) s.length s

def bodyClose : List Char := "</body>".data

def scriptOpenLit : List Char := "<script>".data

/-- The pure string core of `AgentSession._apply_edit` after the patch
service returned `new_processed`: restore placeholders, re-add scripts
lost by restoration, and as a fallback pull scripts straight out of the
edit instructions when the patched document contains none. -/
def apply_edit_pipeline (new_processed edits : List Char)
    (replacements : List (List Char × List Char)) : List Char :=
  let new_scripts := findScripts new_processed
  let new_html0 := replacement_apply new_processed replacements
  let current_scripts := findScripts new_html0
  let new_html1 := new_scripts.foldl
    (fun h sp =>
      if sp ∉ current_scripts ∧ sp ∉ replacements.map Prod.snd then
        pyReplace h bodyClose (sp ++ '\n' :: bodyClose)
      else h) new_html0
  if new_scripts.length = 0 ∧ occursIn scriptOpenLit (lowerL edits) = true then
    (findScripts edits).foldl
      (fun h sp =>
        if occursIn sp h = false then pyReplace h bodyClose (sp ++ '\n' :: bodyClose)
        else h) new_html1
  else new_html1

def c4WDoc : List Char := "<body><p>hi</p></body>".data

def c4WEdits : List Char := "<script>alert(1)</script>".data

/-! ## Session records and the in-memory database (utils.py / db.py / agent.py) -/

/-- A Python value as stored in session records. -/
inductive PyVal where
  | pyNone : PyVal
  | pyBool (b : Bool) : PyVal
  | pyInt (n : Int) : PyVal
  | pyStr (s : String) : PyVal
  | pyList (xs : List PyVal) : PyVal
  | pyDict (kvs : List (String × PyVal)) : PyVal

/-- Association-list lookup (Python `d[k]` read; `none` models `KeyError`). -/
def assocLookup {α : Type} : List (String × α) → String → Option α
  | [], _ => none
  | (k, v) :: rest, key => if k = key then some v else assocLookup rest key

/-- Python `d[k] = v`: replace in place, keeping the key's position, or
append a new key at the end (insertion order is preserved). -/
def setKey {α : Type} : List (String × α) → String → α → List (String × α)
  | [], key, v => [(key, v)]
  | (k, w) :: rest, key, v =>
    if k = key then (k, v) :: rest else (k, w) :: setKey rest key v

/-- Python `base.update(upd)`. -/
def dictUpdate {α : Type} (base upd : List (String × α)) : List (String × α) :=
  upd.foldl (fun b e => setKey b e.1 e.2) base

def pyStrData : PyVal → List Char
  | .pyStr s => s.data
  | _ => []

/-- Read a string-valued key (used to state record facts decidably). -/
def getStrKey (d : List (String × PyVal)) (k : String) : Option String :=
  match assocLookup d k with
  | some (.pyStr s) => some s
  | _ => none

/-- Read an integer-valued key. -/
def getIntKey (d : List (String × PyVal)) (k : String) : Option Int :=
  match assocLookup d k with
  | some (.pyInt n) => some n
  | _ => none

/-- `create_agent_session` from utils.py: build the session record (note:
it stores an `iterations` list and no `conversation_history` key) and
save it to the database.  `db.set` always succeeds. -/
def create_agent_session (session_id html query : String) (max_iterations : PyVal)
    (now : String) (store : List (String × PyVal)) :
    List (String × PyVal) × List (String × PyVal) :=
  let processed := (process_html html.data).1
  let replacements := (process_html html.data).2
  let session_data : List (String × PyVal) :=
    [("id", .pyStr session_id),
     ("status", .pyStr "created"),
     ("max_iterations", max_iterations),
     ("current_iteration", .pyInt 0),
     ("html", .pyStr html),
     ("current_html", .pyStr html),
     ("processed_html", .pyStr (String.mk processed)),
     ("current_processed_html", .pyStr (String.mk processed)),
     ("replacements",
       .pyDict (replacements.map (fun e => (String.mk e.1, PyVal.pyStr (String.mk e.2))))),
     ("original_query", .pyStr query),
     ("iterations", .pyList []),
     ("created_at", .pyStr now),
     ("updated_at", .pyStr now)]
  (session_data, setKey store session_id (.pyDict session_data))

/-- Calling `create_agent_session` with the `max_iterations` argument
omitted: Python's declared default is 5. -/
def create_agent_session_default (session_id html query now : String)
    (store : List (String × PyVal)) :
    List (String × PyVal) × List (String × PyVal) :=
  create_agent_session session_id html query (.pyInt 5) now store

/-- `update_session` from utils.py: merge the updates into the stored
record, stamp `updated_at`, and save. -/
def update_session (session_id : String) (updates : List (String × PyVal))
    (now : String) (store : List (String × PyVal)) :
    Bool × List (String × PyVal) :=
  match assocLookup store session_id with
  | none => (false, store)
  | some (.pyDict session) =>
    let merged := setKey (dictUpdate session updates) "updated_at" (.pyStr now)
    (true, setKey store session_id (.pyDict merged))
  | some _ => (false, store)

structure ProcessingResult where
  status : String
  message : String
  updated_html : Option String
deriving DecidableEq

/-- `AgentSession._add_user_message`: silently returns when the session is
missing; otherwise appends the user message to
`session["conversation_history"]` — a read that raises `KeyError` (the
`.error` branch) when the key is absent, as it is for every record built
by `create_agent_session`. -/
def add_user_message (session_id query : String) (screenshot : Option String)
    (now : String) (store : List (String × PyVal)) :
    Except String (List (String × PyVal)) :=
  match assocLookup store session_id with
  | none => .ok store
  | some (.pyDict session) =>
    let user_message : List (String × PyVal) :=
      [("role", .pyStr "user"), ("content", .pyStr query), ("timestamp", .pyStr now)]
        ++ (match screenshot with
            | some _ =>
              [("image_path", .pyStr ("screenshots/" ++ session_id ++ "_" ++ now ++ ".png"))]
            | none => [])
    match assocLookup session "conversation_history" with
    | some (.pyList history) =>
      .ok (update_session session_id
        [("conversation_history", .pyList (history ++ [.pyDict user_message])),
         ("status", .pyStr "processing")] now store).2
    | some _ => .error "conversation_history is not a list"
    | none => .error "\x27conversation_history\x27"
  | some _ => .error "session record is not a dict"

/-- `AgentSession.process_user_request`: the top-level handler catches any
exception from the body and converts it into an error result, leaving the
stored record untouched.  `llmStep` abstracts `_process_llm_request`
(never reached when adding the user message fails). -/
def process_user_request (session_id query : String) (screenshot : Option String)
    (now : String)
    (llmStep : List (String × PyVal) → ProcessingResult × List (String × PyVal))
    (store : List (String × PyVal)) : ProcessingResult × List (String × PyVal) :=
  match assocLookup store session_id with
  | none => (⟨"error", "Session not found", none⟩, store)
  | some _ =>
    match add_user_message session_id query screenshot now store with
    | .error e => (⟨"error", "Error: " ++ e, none⟩, store)
    | .ok store' =>
      match assocLookup store' session_id with
      | none => (⟨"error", "Session not found after update", none⟩, store')
      | some _ => llmStep store'

/-- `AgentSession._apply_edit` after `morph_apply` returned
`patch_output`: run the salvage pipeline, append the agent turn, and
store the updated record with status `"ready"`. -/
def apply_edit (session_id : String) (session : List (String × PyVal))
    (message edits patch_output now : String)
    (store : List (String × PyVal)) :
    Except String (ProcessingResult × List (String × PyVal)) :=
  match assocLookup session "current_processed_html" with
  | none => .error "\x27current_processed_html\x27"
  | some _ =>
    match assocLookup session "replacements" with
    | some (.pyDict reps) =>
      let repsL : List (List Char × List Char) :=
        reps.map (fun e => (e.1.data, pyStrData e.2))
      let new_html := apply_edit_pipeline patch_output.data edits.data repsL
      match assocLookup session "conversation_history" with
      | some (.pyList history) =>
        let agent_message : List (String × PyVal) :=
          [("role", .pyStr "agent"), ("content", .pyStr message),
           ("timestamp", .pyStr now), ("edits", .pyStr edits)]
        .ok (⟨"success", message, some (String.mk new_html)⟩,
          (update_session session_id
            [("current_html", .pyStr (String.mk new_html)),
             ("current_processed_html", .pyStr patch_output),
             ("conversation_history", .pyList (history ++ [.pyDict agent_message])),
             ("status", .pyStr "ready"),
             ("message", .pyStr message)] now store).2)
      | some _ => .error "conversation_history is not a list"
      | none => .error "\x27conversation_history\x27"
    | some _ => .error "replacements is not a dict"
    | none => .error "\x27replacements\x27"

/-- Extract the stored record from a successful `apply_edit` result. -/
def storedRecord (r : Except String (ProcessingResult × List (String × PyVal)))
    (session_id : String) : Option (List (String × PyVal)) :=
  match r with
  | .ok x =>
    match assocLookup x.2 session_id with
    | some (.pyDict rec) => some rec
    | _ => none
  | .error _ => none

def c3Session : List (String × PyVal) :=
  [("current_processed_html", .pyStr "<body></body>"),
   ("replacements", .pyDict []),
   ("conversation_history", .pyList []),
   ("status", .pyStr "created"),
   ("current_iteration", .pyInt 0)]

def c3Store : List (String × PyVal) := [("s1", PyVal.pyDict c3Session)]

/-- The session-creation route's request body (routes.py). -/
structure StartAgentRequest where
  html : String
  query : String
  model_type : String
  initial_screenshot : Option String

/-- A Pydantic `Optional[str]` value as passed into plain Python code. -/
def screenshotVal : Option String → PyVal
  | some s => .pyStr s
  | none => .pyNone

/-- `start_agent_session` from routes.py: the route passes
`request.initial_screenshot` as the fourth positional argument of
`create_agent_session`, which is `max_iterations`. -/
def start_agent_session (req : StartAgentRequest) (session_id now : String)
    (store : List (String × PyVal)) :
    List (String × PyVal) × List (String × PyVal) :=
  create_agent_session session_id req.html req.query
    (screenshotVal req.initial_screenshot) now store

/-- `Generation` from llm.py. -/
structure Generation where
  status : String
  message : String
  edits : Option String
deriving DecidableEq

/-- Python `result.get(k, dflt)` on a decoded JSON object whose values
are strings. -/
def dictGet (d : List (String × String)) (k dflt : String) : String :=
  match assocLookup d k with
  | some v => v
  | none => dflt

def sentinel : String := "GENERATION_COMPLETE"

/-- The `ValueError` text raised when both fields are absent (llm.py). -/
def missingFieldsMsg : String :=
  "Response missing both \x27edits\x27 and \x27reasoning\x27 fields"

/-- `str(e)` of a `json.JSONDecodeError`: CPython formats it as
`msg: line L column C (char P)` — it always ends in a closing
parenthesis. -/
def jsonErrorText (msg : String) (line col pos : Nat) : String :=
  String.mk (msg.data ++ ": line ".data ++ natDigits line ++ " column ".data
    ++ natDigits col ++ " (char ".data ++ natDigits pos ++ [')'])

/-- The debug file written on a parse failure carries the failure reason
and the raw response text (llm.py lines 347-354). -/
structure DebugDump where
  reason : String
  raw : String
deriving DecidableEq

/-- The tail of `forward` (llm.py lines 331-367) after `json.loads`
either produced an object (modelled as a string-valued dict) or raised
with message `e`: check the two fields, dump diagnostics on failure,
detect the completion sentinel on success. -/
def forward_postdecode (text : String)
    (decoded : Except String (List (String × String))) :
    Generation × Option DebugDump :=
  match decoded with
  | .error e =>
    (⟨"error", "Invalid JSON response from AI: " ++ e, none⟩, some ⟨e, text⟩)
  | .ok result =>
    let edits := dictGet result "edits" ""
    let reasoning := dictGet result "reasoning" ""
    if edits = "" ∧ reasoning = "" then
      (⟨"error", "Invalid JSON response from AI: " ++ missingFieldsMsg, none⟩,
        some ⟨missingFieldsMsg, text⟩)
    else if occursIn sentinel.data edits.data then
      (⟨"completed", reasoning, none⟩, none)
    else
      (⟨"applied_edit", reasoning, some edits⟩, none)

/-- `WebSocketManager` state: `connections` maps session ids to socket
handles (abstracted as `Nat`), `locks` holds the per-session lock keys. -/
structure WSState where
  connections : List (String × Nat)
  locks : List String
deriving DecidableEq

/-- `WebSocketManager.disconnect`: delete the session's entries from both
dicts (if present). -/
def ws_disconnect (st : WSState) (session_id : String) : WSState :=
  ⟨st.connections.filter (fun e => e.1 != session_id),
   st.locks.filter (fun k => k != session_id)⟩

/-- Whether awaiting `send_json` succeeded or raised (any exception is
caught by `send_message`; a missing lock key raises inside the same
`try` and lands in the same handler). -/
inductive TransmitOutcome where
  | delivered
  | failed
deriving DecidableEq

/-- `WebSocketManager.send_message`: no connection → `False`; otherwise
try the transmission, and on failure disconnect the session and return
`False`; on success return `True`.  Every branch returns a `Bool` — the
model is a total function, so the operation never raises. -/
def send_message (st : WSState) (session_id : String) (t : TransmitOutcome) :
    Bool × WSState :=
  if (assocLookup st.connections session_id).isSome then
    match t with
    | .delivered => (true, st)
    | .failed => (false, ws_disconnect st session_id)
  else (false, st)

/-- A session as seen by the spec's state machine. -/
structure SpecSession where
  status : String
  message : String
  current_iteration : Nat
  max_iterations : Nat
  waiting : Bool
  history : List String
  events : List String
deriving DecidableEq

/-- A parsed Completion Oracle result. -/
inductive OracleResult where
  | completedR (message : String)
  | errorR (message : String)
  | appliedR (message edits : String)
deriving DecidableEq

def isAppliedR : OracleResult → Bool
  | .appliedR _ _ => true
  | _ => false

def maxIterationsMessage : String := "reached maximum iterations"

/-- Modelled from the spec: the Session State Machine loop of section
4.5 has no implementation in the backend sources (no websocket route
exists and the connection manager is never driven), so the loop is
transcribed from the spec text.  Each iteration: exit on a terminal
status; if `current_iteration` has reached `max_iterations`, force a
`completed` transition with the fixed message and exit; if waiting for
an observation, consume it (appending a user turn on a value, clearing
the flag either way) and continue; otherwise call the Oracle and
dispatch on the parsed result (`completed` / `error` exit emitting one
event, `applied_edit` increments the iteration counter, emits an
`apply_edit` event, sets waiting, continues).  `fuel` bounds the number
of loop iterations. -/
def run_agent_session (oracle : SpecSession → OracleResult)
    (obs : SpecSession → Option String) : Nat → SpecSession → SpecSession
  | 0, s => s
  | fuel+1, s =>
    if s.status = "completed" ∨ s.status = "error" then s
    else if s.max_iterations ≤ s.current_iteration then
      { s with status := "completed", message := maxIterationsMessage }
    else if s.waiting then
      match obs s with
      | some v => run_agent_session oracle obs fuel
          { s with waiting := false, status := "processing", history := s.history ++ [v] }
      | none => run_agent_session oracle obs fuel { s with waiting := false }
    else
      match oracle s with
      | .completedR m =>
        { s with status := "completed", message := m, events := s.events ++ ["completed"] }
      | .errorR m =>
        { s with status := "error", message := m, events := s.events ++ ["error"] }
      | .appliedR m e => run_agent_session oracle obs fuel
          { s with
            current_iteration := s.current_iteration + 1
            status := "applied_edit"
            message := m
            waiting := true
            history := s.history ++ [e]
            events := s.events ++ ["apply_edit"] }

/-! ### Lemmas about the string machinery -/

theorem occursIn_iff (pat s : List Char) :
    occursIn pat s = true ↔ ∃ a b, s = a ++ pat ++ b := by
  induction s with
  | nil =>
    simp only [occursIn, List.isPrefixOf_iff_prefix]
    constructor
    · intro h
      exact ⟨[], [], by simpa using (List.prefix_nil.mp h).symm⟩
    · rintro ⟨a, b, h⟩
      have : pat = [] := by
        rcases List.append_eq_nil.mp h.symm with ⟨h1, _⟩
        rcases List.append_eq_nil.mp h1 with ⟨_, h2⟩
        exact h2
      simp [this]
  | cons c rest ih =>
    simp only [occursIn, Bool.or_eq_true, List.isPrefixOf_iff_prefix, ih]
    constructor
    · rintro (⟨t, ht⟩ | ⟨a, b, hab⟩)
      · exact ⟨[], t, by simp [ht.symm]⟩
      · exact ⟨c :: a, b, by simp [hab]⟩
    · rintro ⟨a, b, hab⟩
      cases a with
      | nil => exact Or.inl ⟨b, by simpa using hab.symm⟩
      | cons a0 a' =>
        right
        simp only [List.cons_append, List.cons.injEq] at hab
        exact ⟨a', b, hab.2⟩

theorem occursIn_of_infix {pat s t : List Char}
    (hsub : s <:+: t) (h : occursIn pat s = true) : occursIn pat t = true := by
  rw [occursIn_iff] at h ⊢
  rcases h with ⟨a, b, rfl⟩
  rcases hsub with ⟨u, v, rfl⟩
  exact ⟨u ++ a, b ++ v, by simp⟩

theorem findFirst_none_iff (pat s : List Char) :
    findFirst pat s = none ↔ occursIn pat s = false := by
  induction s with
  | nil =>
    by_cases h : pat.isPrefixOf ([] : List Char) <;> simp [findFirst, occursIn, h]
  | cons c rest ih =>
    by_cases h : pat.isPrefixOf (c :: rest)
    · simp [findFirst, occursIn, h]
    · simp [findFirst, occursIn, h, Option.map_eq_none', ih]

theorem findFirst_spec {pat s : List Char} {i : Nat}
    (h : findFirst pat s = some i) :
    i + pat.length ≤ s.length ∧ s = s.take i ++ pat ++ s.drop (i + pat.length) := by
  induction s generalizing i with
  | nil =>
    by_cases hp : pat.isPrefixOf ([] : List Char)
    · simp only [findFirst, if_pos hp, Option.some.injEq] at h
      have : pat = [] := List.prefix_nil.mp (List.isPrefixOf_iff_prefix.mp hp)
      subst this
      simp [← h]
    · simp [findFirst, hp] at h
  | cons c rest ih =>
    by_cases hp : pat.isPrefixOf (c :: rest)
    · simp only [findFirst, if_pos hp, Option.some.injEq] at h
      subst h
      rcases List.isPrefixOf_iff_prefix.mp hp with ⟨t, ht⟩
      constructor
      · have hle : pat.length ≤ (c :: rest).length :=
          (List.isPrefixOf_iff_prefix.mp hp).length_le
        omega
      · simp only [List.take_zero, Nat.zero_add, List.nil_append]
        rw [← ht]
        simp
    · simp only [findFirst, if_neg hp] at h
      rcases Option.map_eq_some'.mp h with ⟨j, hj, rfl⟩
      rcases ih hj with ⟨hlen, hsplit⟩
      constructor
      · simp only [List.length_cons]
        omega
      · have : (c :: rest).take (j + 1) = c :: rest.take j := rfl
        rw [this]
        have hdrop : (c :: rest).drop (j + 1 + pat.length) = rest.drop (j + pat.length) := by
          simp [Nat.add_right_comm j 1 pat.length]
        rw [hdrop]
        simpa using hsplit

theorem splitFirst_spec {pat s a b : List Char}
    (h : splitFirst pat s = some (a, b)) :
    s = a ++ pat ++ b := by
  rcases Option.map_eq_some'.mp h with ⟨i, hi, heq⟩
  rcases findFirst_spec hi with ⟨_, hsplit⟩
  have ha : a = s.take i := by simpa using congrArg Prod.fst heq.symm
  have hb : b = s.drop (i + pat.length) := by simpa using congrArg Prod.snd heq.symm
  rw [ha, hb]
  exact hsplit

theorem findFirst_nil_of_ne {pat : List Char} (hpat : pat ≠ []) :
    findFirst pat [] = none := by
  have : pat.isPrefixOf ([] : List Char) = false := by
    cases pat with
    | nil => exact absurd rfl hpat
    | cons c t => rfl
  simp [findFirst, this]

theorem replaceAllGo_congr (pat rep : List Char) (hpat : pat ≠ []) :
    ∀ (n f₁ f₂ : Nat) (s : List Char), s.length ≤ n → s.length ≤ f₁ → s.length ≤ f₂ →
      replaceAllGo pat rep f₁ s = replaceAllGo pat rep f₂ s := by
  intro n
  induction n with
  | zero =>
    intro f₁ f₂ s h0 _ _
    have hs : s = [] := List.length_eq_zero.mp (Nat.le_zero.mp h0)
    subst hs
    cases f₁ <;> cases f₂ <;> simp [replaceAllGo, findFirst_nil_of_ne hpat]
  | succ n ih =>
    intro f₁ f₂ s hn h1 h2
    cases hs : s with
    | nil =>
      cases f₁ <;> cases f₂ <;> simp [replaceAllGo, findFirst_nil_of_ne hpat]
    | cons c rest =>
      subst hs
      have hpos : 1 ≤ (c :: rest).length := by simp
      cases f₁ with
      | zero => omega
      | succ m₁ =>
        cases f₂ with
        | zero => omega
        | succ m₂ =>
          cases hf : findFirst pat (c :: rest) with
          | none => simp [replaceAllGo, hf]
          | some i =>
            simp only [replaceAllGo, hf]
            rcases findFirst_spec hf with ⟨hle, _⟩
            have hpatpos : 1 ≤ pat.length := by
              cases pat with
              | nil => exact absurd rfl hpat
              | cons _ _ => simp
            have hdlen : ((c :: rest).drop (i + pat.length)).length ≤ n := by
              simp only [List.length_drop, List.length_cons] at *
              omega
            have hd1 : ((c :: rest).drop (i + pat.length)).length ≤ m₁ := by
              simp only [List.length_drop, List.length_cons] at *
              omega
            have hd2 : ((c :: rest).drop (i + pat.length)).length ≤ m₂ := by
              simp only [List.length_drop, List.length_cons] at *
              omega
            rw [ih m₁ m₂ _ hdlen hd1 hd2]

theorem pyReplace_of_not_occurs {pat s : List Char} (rep : List Char)
    (h : occursIn pat s = false) : pyReplace s pat rep = s := by
  unfold pyReplace
  by_cases hpat : pat.isEmpty
  · simp [hpat]
  · simp only [hpat, Bool.false_eq_true, if_false]
    have hf : findFirst pat s = none := (findFirst_none_iff pat s).mpr h
    cases hl : s.length with
    | zero => rfl
    | succ m => simp [replaceAllGo, hf]

theorem pyReplace_split {pat s a b : List Char} (rep : List Char) (hpat : pat ≠ [])
    (h : splitFirst pat s = some (a, b)) :
    pyReplace s pat rep = a ++ rep ++ pyReplace b pat rep := by
  rcases Option.map_eq_some'.mp h with ⟨i, hi, heq⟩
  have ha : a = s.take i := by simpa using congrArg Prod.fst heq.symm
  have hb : b = s.drop (i + pat.length) := by simpa using congrArg Prod.snd heq.symm
  rcases findFirst_spec hi with ⟨hle, _⟩
  have hpatpos : 1 ≤ pat.length := by
    cases pat with
    | nil => exact absurd rfl hpat
    | cons _ _ => simp
  have hspos : 1 ≤ s.length := by omega
  have hpe : pat.isEmpty = false := by
    cases pat with
    | nil => exact absurd rfl hpat
    | cons _ _ => rfl
  unfold pyReplace
  simp only [hpe, Bool.false_eq_true, if_false]
  cases hl : s.length with
  | zero => omega
  | succ m =>
    simp only [replaceAllGo, hi]
    have hblen : b.length ≤ m := by
      rw [hb]
      simp only [List.length_drop]
      omega
    rw [ha, hb]
    exact congrArg (fun x => s.take i ++ rep ++ x)
      (replaceAllGo_congr pat rep hpat (s.drop (i + pat.length)).length m
        (s.drop (i + pat.length)).length (s.drop (i + pat.length)) le_rfl
        (hb ▸ hblen) le_rfl)

theorem countOccGo_congr (pat : List Char) (hpat : pat ≠ []) :
    ∀ (n f₁ f₂ : Nat) (s : List Char), s.length ≤ n → s.length ≤ f₁ → s.length ≤ f₂ →
      countOccGo pat f₁ s = countOccGo pat f₂ s := by
  intro n
  induction n with
  | zero =>
    intro f₁ f₂ s h0 _ _
    have hs : s = [] := List.length_eq_zero.mp (Nat.le_zero.mp h0)
    subst hs
    cases f₁ <;> cases f₂ <;> simp [countOccGo, findFirst_nil_of_ne hpat]
  | succ n ih =>
    intro f₁ f₂ s hn h1 h2
    cases hs : s with
    | nil =>
      cases f₁ <;> cases f₂ <;> simp [countOccGo, findFirst_nil_of_ne hpat]
    | cons c rest =>
      subst hs
      have hpos : 1 ≤ (c :: rest).length := by simp
      cases f₁ with
      | zero => omega
      | succ m₁ =>
        cases f₂ with
        | zero => omega
        | succ m₂ =>
          cases hf : findFirst pat (c :: rest) with
          | none => simp [countOccGo, hf]
          | some i =>
            simp only [countOccGo, hf]
            rcases findFirst_spec hf with ⟨hle, _⟩
            have hpatpos : 1 ≤ pat.length := by
              cases pat with
              | nil => exact absurd rfl hpat
              | cons _ _ => simp
            have hdlen : ((c :: rest).drop (i + pat.length)).length ≤ n := by
              simp only [List.length_drop, List.length_cons] at *
              omega
            have hd1 : ((c :: rest).drop (i + pat.length)).length ≤ m₁ := by
              simp only [List.length_drop, List.length_cons] at *
              omega
            have hd2 : ((c :: rest).drop (i + pat.length)).length ≤ m₂ := by
              simp only [List.length_drop, List.length_cons] at *
              omega
            rw [ih m₁ m₂ _ hdlen hd1 hd2]

theorem countOcc_of_not_occurs {pat s : List Char}
    (h : occursIn pat s = false) : countOcc pat s = 0 := by
  unfold countOcc
  by_cases hpat : pat.isEmpty
  · simp [hpat]
  · simp only [hpat, Bool.false_eq_true, if_false]
    have hf : findFirst pat s = none := (findFirst_none_iff pat s).mpr h
    cases hl : s.length with
    | zero => rfl
    | succ m => simp [countOccGo, hf]

theorem countOcc_split {pat s a b : List Char} (hpat : pat ≠ [])
    (h : splitFirst pat s = some (a, b)) :
    countOcc pat s = 1 + countOcc pat b := by
  rcases Option.map_eq_some'.mp h with ⟨i, hi, heq⟩
  have hb : b = s.drop (i + pat.length) := by simpa using congrArg Prod.snd heq.symm
  rcases findFirst_spec hi with ⟨hle, _⟩
  have hpatpos : 1 ≤ pat.length := by
    cases pat with
    | nil => exact absurd rfl hpat
    | cons _ _ => simp
  have hpe : pat.isEmpty = false := by
    cases pat with
    | nil => exact absurd rfl hpat
    | cons _ _ => rfl
  have hspos : 1 ≤ s.length := by omega
  unfold countOcc
  simp only [hpe, Bool.false_eq_true, if_false]
  cases hl : s.length with
  | zero => omega
  | succ m =>
    simp only [countOccGo, hi]
    have hblen : b.length ≤ m := by
      rw [hb]
      simp only [List.length_drop]
      omega
    congr 1
    rw [hb]
    exact countOccGo_congr pat hpat (s.drop (i + pat.length)).length m
      (s.drop (i + pat.length)).length (s.drop (i + pat.length)) le_rfl
      (hb ▸ hblen) le_rfl

theorem countOcc_one_elim {pat s : List Char} (hpat : pat ≠ [])
    (h : countOcc pat s = 1) :
    ∃ a b, splitFirst pat s = some (a, b) ∧ occursIn pat b = false := by
  cases hf : findFirst pat s with
  | none =>
    exfalso
    have : occursIn pat s = false := (findFirst_none_iff pat s).mp hf
    rw [countOcc_of_not_occurs this] at h
    exact absurd h (by omega)
  | some i =>
    refine ⟨s.take i, s.drop (i + pat.length), ?_, ?_⟩
    · simp [splitFirst, hf]
    · have hsplit : splitFirst pat s = some (s.take i, s.drop (i + pat.length)) := by
        simp [splitFirst, hf]
      have := countOcc_split hpat hsplit
      rw [this] at h
      have hz : countOcc pat (s.drop (i + pat.length)) = 0 := by omega
      by_contra hocc
      have hocc' : occursIn pat (s.drop (i + pat.length)) = true := by
        cases hoc : occursIn pat (s.drop (i + pat.length)) with
        | false => exact absurd hoc hocc
        | true => rfl
      rcases (occursIn_iff _ _).mp hocc' with ⟨x, y, hxy⟩
      have hsf : splitFirst pat (s.drop (i + pat.length)) ≠ none := by
        intro hn
        have : occursIn pat (s.drop (i + pat.length)) = false := by
          rcases Option.map_eq_none'.mp hn with hff
          exact (findFirst_none_iff _ _).mp hff
        rw [this] at hocc'
        exact absurd hocc' (by simp)
      rcases Option.ne_none_iff_exists'.mp hsf with ⟨⟨a', b'⟩, hab⟩
      have := countOcc_split hpat hab
      omega

theorem natDigitsGo_congr :
    ∀ (k f₁ f₂ n : Nat), n < k → n < f₁ → n < f₂ →
      natDigitsGo f₁ n = natDigitsGo f₂ n := by
  intro k
  induction k with
  | zero => omega
  | succ k ih =>
    intro f₁ f₂ n hk h1 h2
    cases f₁ with
    | zero => omega
    | succ m₁ =>
      cases f₂ with
      | zero => omega
      | succ m₂ =>
        simp only [natDigitsGo]
        by_cases hn : n < 10
        · simp [hn]
        · simp only [hn, if_false]
          have hdiv : n / 10 < n := Nat.div_lt_self (by omega) (by omega)
          rw [ih m₁ m₂ (n / 10) (by omega) (by omega) (by omega)]

theorem digitsVal_append (a : List Char) (c : Char) :
    digitsVal (a ++ [c]) = 10 * digitsVal a + digitVal c := by
  simp [digitsVal, List.foldl_append]

theorem digitChar_toNat {d : Nat} (h : d < 10) : (digitChar d).toNat = 48 + d := by
  interval_cases d <;> decide

theorem digitVal_digitChar {d : Nat} (h : d < 10) : digitVal (digitChar d) = d := by
  simp [digitVal, digitChar_toNat h]

theorem digitsVal_natDigits (n : Nat) : digitsVal (natDigits n) = n := by
  induction n using Nat.strong_induction_on with
  | _ n ih =>
    unfold natDigits natDigitsGo
    by_cases hn : n < 10
    · simp only [hn, if_true]
      simp [digitsVal, digitVal_digitChar hn]
    · simp only [hn, if_false]
      have hdiv : n / 10 < n := Nat.div_lt_self (by omega) (by omega)
      have hcongr : natDigitsGo n (n / 10) = natDigits (n / 10) := by
        unfold natDigits
        exact natDigitsGo_congr (n / 10 + 1) n (n / 10 + 1) (n / 10)
          (by omega) (by omega) (by omega)
      rw [hcongr, digitsVal_append, ih (n / 10) hdiv, digitVal_digitChar (by omega)]
      omega

theorem natDigits_inj {a b : Nat} (h : natDigits a = natDigits b) : a = b := by
  have := congrArg digitsVal h
  rwa [digitsVal_natDigits, digitsVal_natDigits] at this

theorem natDigits_ne_nil (n : Nat) : natDigits n ≠ [] := by
  unfold natDigits natDigitsGo
  by_cases hn : n < 10 <;> simp [hn]

/-! ### Token shape lemmas -/

theorem tagAbbrev_length (c : TagCat) : (tagAbbrev c).length = 2 := by
  cases c <;> rfl

theorem tagAbbrev_inj {c₁ c₂ : TagCat} (h : tagAbbrev c₁ = tagAbbrev c₂) : c₁ = c₂ := by
  cases c₁ <;> cases c₂ <;> first | rfl | (exfalso; simp [tagAbbrev] at h)

theorem mkToken_inj {c₁ c₂ : TagCat} {n₁ n₂ : Nat}
    (h : mkToken c₁ n₁ = mkToken c₂ n₂) : c₁ = c₂ ∧ n₁ = n₂ := by
  unfold mkToken at h
  simp only [List.cons.injEq, true_and] at h
  rw [List.append_assoc, List.append_assoc] at h
  have h12 := List.append_inj h (by rw [tagAbbrev_length, tagAbbrev_length])
  have hcat := tagAbbrev_inj h12.1
  subst hcat
  exact ⟨rfl, natDigits_inj (List.append_cancel_right h12.2)⟩

theorem mkToken_ne_nil (c : TagCat) (n : Nat) : mkToken c n ≠ [] := by
  simp [mkToken]

/-! ### Scanner structure lemmas -/

theorem blkEntries_segCons (c : Char) (segs : List Blk) :
    blkEntries (segCons c segs) = blkEntries segs := by
  cases segs with
  | nil => rfl
  | cons b rest => cases b <;> rfl

theorem blkEntries_length (segs : List Blk) :
    (blkEntries segs).length = phCount segs := by
  induction segs with
  | nil => rfl
  | cons b rest ih => cases b <;> simp [blkEntries, phCount, ih]

theorem scanGo_keys (cat : TagCat) :
    ∀ (fuel k : Nat) (s : List Char),
      ∃ m, (blkEntries (scanGo cat fuel k s)).map Prod.fst =
        (List.range m).map (fun i => mkToken cat (k + i)) := by
  intro fuel
  induction fuel with
  | zero =>
    intro k s
    refine ⟨0, ?_⟩
    unfold scanGo
    by_cases hs : s.isEmpty <;> simp [hs, blkEntries]
  | succ fuel ih =>
    intro k s
    cases s with
    | nil => exact ⟨0, by simp [scanGo, blkEntries]⟩
    | cons c rest =>
      cases hm : tryMatchTag cat (c :: rest) with
      | some n =>
        rcases ih (k + 1) ((c :: rest).drop n) with ⟨m', hm'⟩
        refine ⟨m' + 1, ?_⟩
        simp only [scanGo, hm, blkEntries, List.map_cons, hm',
          List.range_succ_eq_map, List.map_map]
        congr 1
        apply List.map_congr_left
        intro a _
        simp only [Function.comp_apply]
        congr 1
        omega
      | none =>
        simp only [scanGo, hm, blkEntries_segCons]
        exact ih k rest

theorem shield_keys (cat : TagCat) (s : List Char) :
    ∃ m, (shield cat s).2.map Prod.fst = tokenRun cat m := by
  rcases scanGo_keys cat s.length 1 s with ⟨m, hm⟩
  refine ⟨m, ?_⟩
  unfold shield tokenRun
  simp only [hm]
  apply List.map_congr_left
  intro i _
  congr 1
  omega

theorem tokenRun_nodup (c : TagCat) (m : Nat) : (tokenRun c m).Nodup := by
  unfold tokenRun
  refine List.Nodup.map ?_ (List.nodup_range m)
  intro a b hab
  have := (mkToken_inj hab).2
  omega

theorem process_html_foldl (cats : List TagCat) :
    ∀ (s : List Char) (acc : List (List Char × List Char)),
      cats.foldl
        (fun acc cat =>
          let res := shield cat acc.1
          (res.1, acc.2 ++ res.2))
        (s, acc) = (stageDoc cats s, acc ++ stageEntries cats s) := by
  induction cats with
  | nil => intro s acc; simp [stageDoc, stageEntries]
  | cons c cs ih =>
    intro s acc
    simp only [List.foldl_cons, stageDoc, stageEntries]
    rw [ih]
    simp [List.append_assoc]

theorem process_html_eq (d : List Char) :
    process_html d =
      (stageDoc tagOrder (stripComments d), stageEntries tagOrder (stripComments d)) := by
  unfold process_html
  rw [process_html_foldl]
  simp

theorem shield_keys_shape {cat : TagCat} {s : List Char} {t : List Char}
    (h : t ∈ (shield cat s).2.map Prod.fst) : ∃ n, t = mkToken cat n := by
  rcases shield_keys cat s with ⟨m, hm⟩
  rw [hm] at h
  unfold tokenRun at h
  rcases List.mem_map.mp h with ⟨i, _, rfl⟩
  exact ⟨i + 1, rfl⟩

theorem stageEntries_keys_shape :
    ∀ (cats : List TagCat) (s : List Char) (t : List Char),
      t ∈ (stageEntries cats s).map Prod.fst → ∃ c ∈ cats, ∃ n, t = mkToken c n := by
  intro cats
  induction cats with
  | nil => intro s t h; simp [stageEntries] at h
  | cons c cs ih =>
    intro s t h
    simp only [stageEntries, List.map_append, List.mem_append] at h
    rcases h with h | h
    · rcases shield_keys_shape h with ⟨n, rfl⟩
      exact ⟨c, List.mem_cons_self c cs, n, rfl⟩
    · rcases ih _ t h with ⟨c', hc', n, rfl⟩
      exact ⟨c', List.mem_cons_of_mem c hc', n, rfl⟩

theorem stageEntries_keys_nodup :
    ∀ (cats : List TagCat) (s : List Char), cats.Nodup →
      ((stageEntries cats s).map Prod.fst).Nodup := by
  intro cats
  induction cats with
  | nil => intro s _; simp [stageEntries]
  | cons c cs ih =>
    intro s hnd
    simp only [stageEntries, List.map_append]
    apply List.Nodup.append
    · rcases shield_keys c s with ⟨m, hm⟩
      rw [hm]
      exact tokenRun_nodup c m
    · exact ih _ (List.nodup_cons.mp hnd).2
    · intro t ht ht'
      rcases shield_keys_shape ht with ⟨n, rfl⟩
      rcases stageEntries_keys_shape _ _ _ ht' with ⟨c', hc', n', heq⟩
      have := (mkToken_inj heq).1
      subst this
      exact (List.nodup_cons.mp hnd).1 hc'

/-- Placeholder keys produced by one `process_html` run are pairwise
distinct.  Shared backbone for several claims. -/
theorem process_html_keys_nodup (d : List Char) :
    ((process_html d).2.map Prod.fst).Nodup := by
  rw [process_html_eq]
  exact stageEntries_keys_nodup tagOrder (stripComments d) (by decide)

theorem stageEntries_length :
    ∀ (cats : List TagCat) (s : List Char),
      (stageEntries cats s).length = stageSpans cats s := by
  intro cats
  induction cats with
  | nil => intro s; rfl
  | cons c cs ih =>
    intro s
    simp only [stageEntries, stageSpans, List.length_append, ih]
    congr 1
    exact blkEntries_length _

theorem process_html_keys_decomp (d : List Char) :
    ∃ m₁ m₂ m₃ m₄ m₅,
      (process_html d).2.map Prod.fst =
        tokenRun .svg m₁ ++ tokenRun .script m₂ ++ tokenRun .style m₃ ++
          tokenRun .meta m₄ ++ tokenRun .link m₅ := by
  rw [process_html_eq]
  simp only [tagOrder, stageEntries, List.map_append, List.append_nil]
  rcases shield_keys .svg (stripComments d) with ⟨m₁, h₁⟩
  rcases shield_keys .script _ with ⟨m₂, h₂⟩
  rcases shield_keys .style _ with ⟨m₃, h₃⟩
  rcases shield_keys .meta _ with ⟨m₄, h₄⟩
  rcases shield_keys .link _ with ⟨m₅, h₅⟩
  exact ⟨m₁, m₂, m₃, m₄, m₅, by rw [h₁, h₂, h₃, h₄, h₅]; simp [List.append_assoc]⟩

/-- **C7.** For every input document, the number of distinct placeholder
tokens recorded in the map returned by `process_html` equals the number of
tag spans replaced; tokens are pairwise distinct within one session, and
within each tag category the token counters are consecutive integers
starting at 1 (the key list is a concatenation of runs
`__xy1__, …, __xym__`, one run per category in the fixed order). -/
theorem c7_placeholder_token_counters (d : List Char) :
    ((process_html d).2.map Prod.fst).Nodup
    ∧ (process_html d).2.length = numSpansReplaced d
    ∧ ∃ m₁ m₂ m₃ m₄ m₅,
        (process_html d).2.map Prod.fst =
          tokenRun .svg m₁ ++ tokenRun .script m₂ ++ tokenRun .style m₃ ++
            tokenRun .meta m₄ ++ tokenRun .link m₅ := by
  refine ⟨process_html_keys_nodup d, ?_, process_html_keys_decomp d⟩
  rw [process_html_eq]
  exact stageEntries_length tagOrder (stripComments d)

theorem renderSh_append (a b : List Blk) :
    renderSh (a ++ b) = renderSh a ++ renderSh b := by
  induction a with
  | nil => rfl
  | cons x rest ih => cases x <;> simp [renderSh, ih]

theorem renderOrig_append (a b : List Blk) :
    renderOrig (a ++ b) = renderOrig a ++ renderOrig b := by
  induction a with
  | nil => rfl
  | cons x rest ih => cases x <;> simp [renderOrig, ih]

theorem blkEntries_append (a b : List Blk) :
    blkEntries (a ++ b) = blkEntries a ++ blkEntries b := by
  induction a with
  | nil => rfl
  | cons x rest ih => cases x <;> simp [blkEntries, ih]

theorem blocksAfter_cons (ks : List (List Char)) (b : Blk) (bs : List Blk) :
    blocksAfter ks (b :: bs) =
      (match b with
        | .ph t o => if t ∈ ks then .lit o else .ph t o
        | .lit cs => .lit cs) :: blocksAfter ks bs := rfl

theorem splitAtPh_decomp {t : List Char} :
    ∀ {bs pre post : List Blk} {o : List Char},
      splitAtPh t bs = some (pre, o, post) → bs = pre ++ .ph t o :: post := by
  intro bs
  induction bs with
  | nil => intro pre post o h; simp [splitAtPh] at h
  | cons b rest ih =>
    intro pre post o h
    cases b with
    | lit cs =>
      simp only [splitAtPh, Option.map_eq_some'] at h
      rcases h with ⟨⟨p', o', s'⟩, hsp, heq⟩
      simp only [Prod.mk.injEq] at heq
      obtain ⟨rfl, rfl, rfl⟩ := heq
      simpa using ih hsp
    | ph t' o' =>
      by_cases ht : t' = t
      · subst ht
        simp only [splitAtPh, if_true, Option.some.injEq, Prod.mk.injEq] at h
        obtain ⟨rfl, rfl, rfl⟩ := h
        rfl
      · simp only [splitAtPh, if_neg ht, Option.map_eq_some'] at h
        rcases h with ⟨⟨p', o'', s'⟩, hsp, heq⟩
        simp only [Prod.mk.injEq] at heq
        obtain ⟨rfl, rfl, rfl⟩ := heq
        simpa using ih hsp

theorem blkEntries_blocksAfter (ks : List (List Char)) (bs : List Blk) :
    blkEntries (blocksAfter ks bs) =
      (blkEntries bs).filter (fun e => !decide (e.1 ∈ ks)) := by
  induction bs with
  | nil => rfl
  | cons b rest ih =>
    rw [blocksAfter_cons]
    cases b with
    | lit cs => simpa [blkEntries] using ih
    | ph t o =>
      by_cases ht : t ∈ ks
      · simp [blkEntries, ht, ih, List.filter_cons]
      · simp [blkEntries, ht, ih, List.filter_cons]

theorem blocksAfter_nil (bs : List Blk) : blocksAfter [] bs = bs := by
  induction bs with
  | nil => rfl
  | cons b rest ih =>
    rw [blocksAfter_cons, ih]
    cases b <;> simp

theorem blocksAfter_snoc (ks : List (List Char)) (t : List Char) (bs : List Blk) :
    blocksAfter (ks ++ [t]) bs = (blocksAfter ks bs).map (phToLit t) := by
  unfold blocksAfter
  rw [List.map_map]
  apply List.map_congr_left
  intro b _
  cases b with
  | lit cs => rfl
  | ph t' o =>
    by_cases hks : t' ∈ ks
    · simp [phToLit, hks, Function.comp]
    · by_cases ht : t' = t
      · subst ht
        simp [phToLit, hks, Function.comp]
      · simp [phToLit, hks, ht, Function.comp]

theorem map_phToLit_of_not_mem {t : List Char} :
    ∀ {bs : List Blk}, t ∉ (blkEntries bs).map Prod.fst → bs.map (phToLit t) = bs := by
  intro bs
  induction bs with
  | nil => intro _; rfl
  | cons b rest ih =>
    intro h
    cases b with
    | lit cs =>
      simp only [blkEntries] at h
      simp [phToLit, ih h]
    | ph t' o =>
      simp only [blkEntries, List.map_cons, List.mem_cons] at h
      push_neg at h
      simp [phToLit, Ne.symm h.1, ih h.2]

theorem renderSh_blocksAfter_all {ks : List (List Char)} :
    ∀ {bs : List Blk}, (∀ e ∈ blkEntries bs, e.1 ∈ ks) →
      renderSh (blocksAfter ks bs) = renderOrig bs := by
  intro bs
  induction bs with
  | nil => intro _; rfl
  | cons b rest ih =>
    intro h
    cases b with
    | lit cs =>
      simp only [blkEntries] at h
      simp only [blocksAfter, List.map_cons] at *
      simp [renderSh, renderOrig, ih h]
    | ph t o =>
      have hmem : t ∈ ks := h (t, o) (by simp [blkEntries])
      have hrest : ∀ e ∈ blkEntries rest, e.1 ∈ ks := by
        intro e he
        exact h e (by simp [blkEntries, he])
      simp only [blocksAfter, List.map_cons, if_pos hmem] at *
      simp [renderSh, renderOrig, ih hrest]

theorem assoc_nodup_eq {es : List (List Char × List Char)} {t a b : List Char}
    (hnd : (es.map Prod.fst).Nodup) (ha : (t, a) ∈ es) (hb : (t, b) ∈ es) : a = b := by
  induction es with
  | nil => simp at ha
  | cons e rest ih =>
    simp only [List.map_cons, List.nodup_cons] at hnd
    rcases List.mem_cons.mp ha with ha' | ha' <;> rcases List.mem_cons.mp hb with hb' | hb'
    · exact congrArg Prod.snd (ha'.trans hb'.symm)
    · exfalso
      apply hnd.1
      rw [← ha']
      exact List.mem_map.mpr ⟨(t, b), hb', rfl⟩
    · exfalso
      apply hnd.1
      rw [← hb']
      exact List.mem_map.mpr ⟨(t, a), ha', rfl⟩
    · exact ih hnd.2 ha' hb'

theorem c1_step (es : List (List Char × List Char)) (bs : List Blk) (j : Nat)
    (hj : j < es.length)
    (hndE : (es.map Prod.fst).Nodup)
    (hndB : ((blkEntries bs).map Prod.fst).Nodup)
    (hne : ∀ e ∈ es, e.1 ≠ ([] : List Char))
    (hSub : ∀ e ∈ blkEntries bs, e ∈ es)
    (hstep : stepOK es bs j = true) :
    pyReplace (renderSh (blocksAfter ((es.take j).map Prod.fst) bs))
        (es.get ⟨j, hj⟩).1 (es.get ⟨j, hj⟩).2
      = renderSh (blocksAfter ((es.take (j + 1)).map Prod.fst) bs) := by
  have hget : es.get? j = some ((es.get ⟨j, hj⟩).1, (es.get ⟨j, hj⟩).2) := by
    rw [List.get?_eq_get hj]
  set t := (es.get ⟨j, hj⟩).1 with ht
  set oe := (es.get ⟨j, hj⟩).2 with hoe
  cases hsp : splitAtPh t (blocksAfter ((es.take j).map Prod.fst) bs) with
  | none =>
    unfold stepOK at hstep
    simp only [hget, hsp] at hstep
    exact absurd hstep (by decide)
  | some x =>
    obtain ⟨pre, o, post⟩ := x
    unfold stepOK at hstep
    simp only [hget, hsp, Bool.and_eq_true, beq_iff_eq, Bool.not_eq_true'] at hstep
    obtain ⟨h1, h2⟩ := hstep
    have htne : t ≠ [] := hne _ (es.get_mem j hj)
    have hdecomp : blocksAfter ((es.take j).map Prod.fst) bs = pre ++ .ph t o :: post :=
      splitAtPh_decomp hsp
    -- the entries of the updated block list are a sublist of those of `bs`
    have hcurFil : blkEntries (blocksAfter ((es.take j).map Prod.fst) bs) =
        (blkEntries bs).filter (fun e => !decide (e.1 ∈ (es.take j).map Prod.fst)) :=
      blkEntries_blocksAfter _ _
    have hndCur : ((blkEntries (blocksAfter ((es.take j).map Prod.fst) bs)).map Prod.fst).Nodup := by
      rw [hcurFil]
      exact hndB.sublist ((List.filter_sublist _).map Prod.fst)
    -- the fragment recorded in the block equals the fragment in the map
    have hmemCur : (t, o) ∈ blkEntries (blocksAfter ((es.take j).map Prod.fst) bs) := by
      rw [hdecomp, blkEntries_append]
      simp [blkEntries]
    have hmemBs : (t, o) ∈ blkEntries bs := by
      rw [hcurFil] at hmemCur
      exact List.mem_of_mem_filter hmemCur
    have hmemEs : (t, o) ∈ es := hSub _ hmemBs
    have hmemEs' : (t, oe) ∈ es := List.get?_mem hget
    have hooe : o = oe := assoc_nodup_eq hndE hmemEs hmemEs'
    -- `t` appears in neither the prefix nor the suffix blocks
    have hkeys : (blkEntries (blocksAfter ((es.take j).map Prod.fst) bs)).map Prod.fst =
        (blkEntries pre).map Prod.fst ++ t :: (blkEntries post).map Prod.fst := by
      rw [hdecomp, blkEntries_append]
      simp [blkEntries]
    have htpre : t ∉ (blkEntries pre).map Prod.fst := by
      rw [hkeys] at hndCur
      intro hmem
      exact (List.nodup_append.mp hndCur).2.2 hmem (List.mem_cons_self _ _)
    have htpost : t ∉ (blkEntries post).map Prod.fst := by
      rw [hkeys] at hndCur
      have := (List.nodup_append.mp hndCur).2.1
      exact (List.nodup_cons.mp this).1
    -- evaluate the replacement
    rw [pyReplace_split oe htne h1, pyReplace_of_not_occurs oe h2]
    -- evaluate the block update on the right-hand side
    have hget2 : es[j]? = some (t, oe) := by
      rw [List.getElem?_eq_getElem hj]
      exact congrArg some Prod.mk.eta.symm
    have htake : (es.take (j + 1)).map Prod.fst = (es.take j).map Prod.fst ++ [t] := by
      rw [List.take_succ, hget2]
      simp
    rw [htake, blocksAfter_snoc, hdecomp]
    have hmap : (pre ++ .ph t o :: post).map (phToLit t) = pre ++ .lit o :: post := by
      rw [List.map_append, List.map_cons]
      rw [map_phToLit_of_not_mem htpre, map_phToLit_of_not_mem htpost]
      simp [phToLit]
    rw [hmap, renderSh_append]
    simp [renderSh, hooe]

theorem c1_restore_loop (es : List (List Char × List Char)) (bs : List Blk)
    (hndE : (es.map Prod.fst).Nodup)
    (hndB : ((blkEntries bs).map Prod.fst).Nodup)
    (hne : ∀ e ∈ es, e.1 ≠ ([] : List Char))
    (hSub : ∀ e ∈ blkEntries bs, e ∈ es)
    (hStep : ∀ j, j < es.length → stepOK es bs j = true) :
    ∀ (k : Nat), k ≤ es.length →
      (es.drop (es.length - k)).foldl (fun s e => pyReplace s e.1 e.2)
          (renderSh (blocksAfter ((es.take (es.length - k)).map Prod.fst) bs))
        = renderSh (blocksAfter (es.map Prod.fst) bs) := by
  intro k
  induction k with
  | zero =>
    intro _
    simp
  | succ k ih =>
    intro hk
    have hjlt : es.length - (k + 1) < es.length := by omega
    have hdrop : es.drop (es.length - (k + 1)) =
        es.get ⟨es.length - (k + 1), hjlt⟩ :: es.drop (es.length - (k + 1) + 1) :=
      List.drop_eq_getElem_cons hjlt
    rw [hdrop, List.foldl_cons,
      c1_step es bs (es.length - (k + 1)) hjlt hndE hndB hne hSub (hStep _ hjlt)]
    have harith : es.length - (k + 1) + 1 = es.length - k := by omega
    rw [harith]
    exact ih (by omega)

/-- **C1 (counterexample).**  The claim "for every document whose shielded
categories are balanced, `replacement_apply` applied to the output of
`process_html` returns the document with comments removed" fails on the
balanced document `<script><svg></svg></script>`: the svg placeholder is
restored before the script placeholder whose fragment contains it, so the
literal token `__sv1__` survives in the output. -/
theorem c1_roundtrip_counterexample :
    balancedCats c1Doc = true
    ∧ replacement_apply (process_html c1Doc).1 (process_html c1Doc).2 ≠ stripComments c1Doc := by
  constructor
  · decide
  · decide

/-- **C1 (amended).**  For every document `d` whose shielded categories
are balanced and whose shielding admits a faithful block reading — the
shielded output decomposes into literal pieces and single placeholder
blocks that reconstitute the comment-stripped document, every block entry
appears in the map, and at each restoration step the token being restored
occurs exactly at its own block and nowhere later — `replacement_apply`
inverts `process_html` up to comment removal. -/
theorem c1_roundtrip_amended (d : List Char) (bs : List Blk)
    (_hbal : balancedCats d = true)
    (hRen : renderSh bs = (process_html d).1)
    (hOrig : renderOrig bs = stripComments d)
    (hndB : ((blkEntries bs).map Prod.fst).Nodup)
    (hSub : ∀ e ∈ blkEntries bs, e ∈ (process_html d).2)
    (hStep : ∀ j, j < (process_html d).2.length → stepOK (process_html d).2 bs j = true) :
    replacement_apply (process_html d).1 (process_html d).2 = stripComments d := by
  have hndE := process_html_keys_nodup d
  have hne : ∀ e ∈ (process_html d).2, e.1 ≠ ([] : List Char) := by
    intro e he
    have hmem : e.1 ∈ (process_html d).2.map Prod.fst := List.mem_map_of_mem _ he
    rw [process_html_eq] at hmem
    rcases stageEntries_keys_shape tagOrder (stripComments d) e.1 hmem with ⟨c, _, n, hcn⟩
    rw [hcn]
    exact mkToken_ne_nil c n
  have hmain := c1_restore_loop (process_html d).2 bs hndE hndB hne hSub hStep
    (process_html d).2.length le_rfl
  rw [Nat.sub_self, List.drop_zero, List.take_zero, List.map_nil, blocksAfter_nil, hRen]
    at hmain
  unfold replacement_apply
  rw [hmain, renderSh_blocksAfter_all, hOrig]
  intro e he
  exact List.mem_map_of_mem Prod.fst (hSub e he)

theorem c1_roundtrip_amended_witness :
    replacement_apply (process_html c1WitnessDoc).1 (process_html c1WitnessDoc).2
      = stripComments c1WitnessDoc :=
  c1_roundtrip_amended c1WitnessDoc c1WitnessBlocks (by decide) (by decide) (by decide)
    (by decide) (by decide) (by decide)

theorem findAllGo_mem {tm : List Char → Option Nat} :
    ∀ {fuel : Nat} {s sp : List Char}, sp ∈ findAllGo tm fuel s →
      ∃ s' n, tm s' = some n ∧ sp = s'.take n := by
  intro fuel
  induction fuel with
  | zero => intro s sp h; simp [findAllGo] at h
  | succ fuel ih =>
    intro s sp h
    cases s with
    | nil => simp [findAllGo] at h
    | cons c rest =>
      cases hm : tm (c :: rest) with
      | some n =>
        simp only [findAllGo, hm, List.mem_cons] at h
        rcases h with h | h
        · exact ⟨c :: rest, n, hm, h⟩
        · exact ih h
      | none =>
        simp only [findAllGo, hm] at h
        exact ih h

theorem lowerL_length (s : List Char) : (lowerL s).length = s.length := by
  simp [lowerL]

theorem lowerL_append (a b : List Char) : lowerL (a ++ b) = lowerL a ++ lowerL b := by
  simp [lowerL]

theorem lowerL_take (n : Nat) (s : List Char) : lowerL (s.take n) = (lowerL s).take n := by
  simp [lowerL]

theorem lowerL_drop (n : Nat) (s : List Char) : lowerL (s.drop n) = (lowerL s).drop n := by
  simp [lowerL]

theorem tryMatchContainer_shape {op cl s' : List Char} {n : Nat}
    (h : tryMatchContainer op cl s' = some n) :
    n ≤ s'.length ∧ cl.length + 1 ≤ n
    ∧ (lowerL op).isPrefixOf (lowerL (s'.take n)) = true
    ∧ ∃ y cv, s'.take n = y ++ cv ∧ cv.length = cl.length ∧ lowerL cv = lowerL cl := by
  unfold tryMatchContainer at h
  by_cases hp : (lowerL op).isPrefixOf (lowerL s') = true
  · simp only [hp, if_true] at h
    by_cases hlt :
        ((s'.drop op.length).takeWhile (fun c => c ≠ '>')).length < (s'.drop op.length).length
    · simp only [hlt, if_true] at h
      cases hf : findFirst (lowerL cl)
          (lowerL ((s'.drop op.length).drop
            (((s'.drop op.length).takeWhile (fun c => c ≠ '>')).length + 1))) with
      | none =>
        simp only [hf] at h
        exact Option.noConfusion h
      | some i =>
        simp only [hf, Option.some.injEq] at h
        subst h
        rcases findFirst_spec hf with ⟨hfl, hfe⟩
        set A := op.length with hA
        set a := ((s'.drop A).takeWhile (fun c => c ≠ '>')).length with ha
        set body := (s'.drop A).drop (a + 1) with hbody
        set C := cl.length with hC
        have hAle : A ≤ s'.length := by
          have := (List.isPrefixOf_iff_prefix.mp hp).length_le
          rw [lowerL_length, lowerL_length] at this
          exact this
        have hRlen : (s'.drop A).length = s'.length - A := by simp
        have hbodylen : body.length = s'.length - A - (a + 1) := by
          rw [hbody]
          simp [Nat.sub_sub]
        have hflen : i + C ≤ body.length := by
          rw [lowerL_length, lowerL_length] at hfl
          exact hfl
        have haR : a + 1 ≤ (s'.drop A).length := by omega
        have hnle : A + a + 1 + i + C ≤ s'.length := by omega
        refine ⟨hnle, by omega, ?_, ?_⟩
        · rw [List.isPrefixOf_iff_prefix] at hp ⊢
          rcases hp with ⟨t, ht⟩
          rw [lowerL_take]
          have hAn : (lowerL op).length ≤ A + a + 1 + i + C := by
            rw [lowerL_length]
            omega
          rw [← ht, List.take_append_eq_append_take]
          have h0 : (A + a + 1 + i + C) - (lowerL op).length ≥ 0 := by omega
          exact ⟨t.take ((A + a + 1 + i + C) - (lowerL op).length), by
            rw [List.take_of_length_le hAn]⟩
        · set n := A + a + 1 + i + C with hn
          have hsplen : (s'.take n).length = n := by simp [hnle]
          refine ⟨(s'.take n).take (n - C), (s'.take n).drop (n - C),
            (List.take_append_drop _ _).symm, ?_, ?_⟩
          · rw [List.length_drop, hsplen]
            omega
          · rw [lowerL_drop, lowerL_take, List.drop_take]
            have hnc : n - C = A + a + 1 + i := by omega
            have hcc : n - (n - C) = C := by omega
            rw [hcc, hnc]
            have hdrop1 : (lowerL s').drop (A + (a + 1)) = lowerL body := by
              rw [hbody, lowerL_drop, lowerL_drop, List.drop_drop]
            have hdrop2 : (lowerL s').drop (A + a + 1 + i) = (lowerL body).drop i := by
              rw [← hdrop1, List.drop_drop]
              congr 1
            rw [hdrop2, hfe]
            have hXlen : ((lowerL body).take i).length = i := by
              rw [List.length_take, lowerL_length]
              omega
            have hcllen : (lowerL cl).length = C := by rw [lowerL_length]
            rw [List.append_assoc, List.drop_left' hXlen, List.take_left' hcllen]
    · simp only [hlt, if_false] at h
      exact Option.noConfusion h
  · simp only [hp, if_false] at h
    exact Option.noConfusion h

theorem occursIn_cons_false {pat : List Char} {c : Char} {s : List Char}
    (h1 : pat.isPrefixOf (c :: s) = false) (h2 : occursIn pat s = false) :
    occursIn pat (c :: s) = false := by
  simp [occursIn, h1, h2]

theorem span_head_shape {sp : List Char}
    (h : (lowerL (openTagOf .script)).isPrefixOf (lowerL sp) = true) :
    ∃ c₀ c₁ tl, sp = c₀ :: c₁ :: tl ∧ lowerChar c₀ = '<' ∧ lowerChar c₁ = 's' := by
  rcases List.isPrefixOf_iff_prefix.mp h with ⟨t, ht⟩
  have hlow : lowerL (openTagOf .script) = '<' :: 's' :: "cript".data := by decide
  rw [hlow] at ht
  cases sp with
  | nil => simp [lowerL] at ht
  | cons c₀ rest =>
    cases rest with
    | nil =>
      simp only [lowerL, List.map_cons, List.map_nil, List.cons_append, List.nil_append,
        List.cons.injEq] at ht
      exact absurd ht.2 (by simp)
    | cons c₁ tl =>
      simp only [lowerL, List.map_cons, List.cons_append, List.cons.injEq] at ht
      exact ⟨c₀, c₁, tl, rfl, ht.1.symm, ht.2.1.symm⟩

theorem span_no_crossing {sp A B : List Char}
    (hhead : ∃ c₀ tl, sp = c₀ :: tl ∧ lowerChar c₀ = '<')
    (hcv : ∃ y cv, sp = y ++ cv ∧ cv.length = 9 ∧ lowerL cv = "</script>".data)
    (honly : occursIn ("</script>".data) (lowerL (sp.take (sp.length - 1))) = false)
    (hApos : 0 < A.length) (hAlt : A.length < sp.length)
    (hpre : sp.isPrefixOf (A ++ sp ++ B) = true) : False := by
  obtain ⟨y, cv, hycv, hcvlen, hcvlow⟩ := hcv
  have hylen : y.length = sp.length - 9 := by
    have := congrArg List.length hycv
    simp only [List.length_append, hcvlen] at this
    omega
  have hylen' : sp.length = y.length + 9 := by
    have := congrArg List.length hycv
    simp only [List.length_append, hcvlen] at this
    omega
  rcases List.isPrefixOf_iff_prefix.mp hpre with ⟨t, ht⟩
  have hspEq : sp = A ++ sp.take (sp.length - A.length) := by
    have h1 := congrArg (List.take sp.length) ht
    rw [List.take_append_eq_append_take, List.take_of_length_le (le_refl sp.length),
      Nat.sub_self, List.take_zero, List.append_nil] at h1
    rw [List.append_assoc, List.take_append_eq_append_take,
      List.take_of_length_le (by omega), List.take_append_eq_append_take] at h1
    have hz : sp.length - A.length - sp.length = 0 := by omega
    rw [hz, List.take_zero, List.append_nil] at h1
    exact h1
  have hdropEq : sp.drop A.length = sp.take (sp.length - A.length) := by
    conv_lhs => rw [hspEq]
    rw [List.drop_left]
  by_cases hk9 : A.length + 9 ≤ sp.length
  · have hky : A.length ≤ y.length := by omega
    have h2 : sp.drop A.length = y.drop A.length ++ cv := by
      rw [hycv, List.drop_append_eq_append_drop]
      have hz : A.length - y.length = 0 := by omega
      rw [hz, List.drop_zero]
    have harith : sp.length - 1 = (sp.length - A.length) + (A.length - 1) := by omega
    have h3 : sp.take (sp.length - 1) =
        sp.take (sp.length - A.length) ++ (sp.drop (sp.length - A.length)).take (A.length - 1) := by
      rw [harith, List.take_add]
    have hocc : occursIn ("</script>".data) (lowerL (sp.take (sp.length - 1))) = true := by
      rw [h3, lowerL_append, ← hdropEq, h2, lowerL_append, hcvlow]
      rw [occursIn_iff]
      exact ⟨lowerL (y.drop A.length),
        lowerL ((sp.drop (sp.length - A.length)).take (A.length - 1)), by
          simp [List.append_assoc]⟩
    rw [honly] at hocc
    exact Bool.noConfusion hocc
  · obtain ⟨c₀, tl, hc0, hlow0⟩ := hhead
    have hmk1 : 1 ≤ sp.length - A.length := by omega
    have he := congrArg (fun l => l[0]?) hdropEq
    simp only [List.getElem?_drop, List.getElem?_take] at he
    have he' : sp[A.length]? = sp[0]? := by
      simpa [Nat.add_zero, hmk1, Nat.lt_of_lt_of_le (Nat.zero_lt_one) hmk1] using he
    have h0v : sp[0]? = some c₀ := by rw [hc0]; simp
    have hky : y.length ≤ A.length := by omega
    have hval : sp[A.length]? = cv[A.length - y.length]? := by
      rw [hycv, List.getElem?_append_right hky]
    have hlowv : ("</script>".data)[A.length - y.length]? = some '<' := by
      rw [← hcvlow]
      show (cv.map lowerChar)[A.length - y.length]? = some '<'
      rw [List.getElem?_map, ← hval, he', h0v]
      simp [hlow0]
    have hj1 : 1 ≤ A.length - y.length := by omega
    have hj9 : A.length - y.length < 9 := by omega
    have hchars : ∀ j, j < 9 → 1 ≤ j → ("</script>".data)[j]? ≠ some '<' := by decide
    exact hchars _ hj9 hj1 hlowv

theorem findFirst_span_boundary {sp B : List Char}
    (hhead : ∃ c₀ tl, sp = c₀ :: tl ∧ lowerChar c₀ = '<')
    (hcv : ∃ y cv, sp = y ++ cv ∧ cv.length = 9 ∧ lowerL cv = "</script>".data)
    (honly : occursIn ("</script>".data) (lowerL (sp.take (sp.length - 1))) = false) :
    ∀ (A : List Char), occursIn sp A = false →
      findFirst sp (A ++ (sp ++ B)) = some A.length := by
  intro A
  induction A with
  | nil =>
    intro _
    obtain ⟨c₀, tl, hsp0, _⟩ := hhead
    rw [List.nil_append, hsp0, List.cons_append]
    have hpfx : (c₀ :: tl).isPrefixOf (c₀ :: (tl ++ B)) = true :=
      List.isPrefixOf_iff_prefix.mpr ⟨B, by simp⟩
    simp only [findFirst, hpfx, if_true]
    rfl
  | cons a A' ih =>
    intro hA
    have hA2 : sp.isPrefixOf (a :: A') = false ∧ occursIn sp A' = false := by
      have := hA
      simp only [occursIn, Bool.or_eq_false_iff] at this
      exact this
    have hnp : sp.isPrefixOf (a :: (A' ++ (sp ++ B))) = false := by
      by_contra hcontra
      have h' : sp.isPrefixOf (a :: (A' ++ (sp ++ B))) = true := by
        cases hx : sp.isPrefixOf (a :: (A' ++ (sp ++ B))) with
        | true => rfl
        | false => exact absurd hx hcontra
      have h'' : sp.isPrefixOf ((a :: A') ++ sp ++ B) = true := by
        rw [List.append_assoc, List.cons_append]
        exact h'
      rcases Nat.lt_or_ge (a :: A').length sp.length with hlt | hge
      · exact span_no_crossing hhead hcv honly (by simp) hlt h''
      · rcases List.isPrefixOf_iff_prefix.mp h' with ⟨t, ht⟩
        have hsp' : sp = (a :: A').take sp.length := by
          have h1 := congrArg (List.take sp.length) ht
          rw [List.take_append_eq_append_take, List.take_of_length_le (le_refl sp.length),
            Nat.sub_self, List.take_zero, List.append_nil, ← List.cons_append,
            List.take_append_eq_append_take] at h1
          have hz : sp.length - (a :: A').length = 0 := by omega
          rw [hz, List.take_zero, List.append_nil] at h1
          exact h1
        have hocc : occursIn sp (a :: A') = true := by
          rw [occursIn_iff]
          refine ⟨[], (a :: A').drop sp.length, ?_⟩
          rw [List.nil_append]
          conv_lhs => rw [← List.take_append_drop sp.length (a :: A')]
          rw [← hsp']
        rw [hA] at hocc
        exact Bool.noConfusion hocc
    rw [List.cons_append]
    simp only [findFirst, hnp, Bool.false_eq_true, if_false]
    rw [ih hA2.2]
    rfl

theorem not_occursIn_tail {sp suf : List Char}
    (hhead2 : ∃ c₀ c₁ tl, sp = c₀ :: c₁ :: tl ∧ lowerChar c₀ = '<' ∧ lowerChar c₁ = 's')
    (hsuf : occursIn sp suf = false) :
    occursIn sp ('\n' :: bodyClose ++ suf) = false := by
  obtain ⟨c₀, c₁, tl, hsp, h0, h1⟩ := hhead2
  have hc0ne : ∀ b : Char, lowerChar b ≠ '<' → c₀ ≠ b := by
    intro b hb hc
    rw [hc] at h0
    exact hb h0
  have hc1slash : (c₁ == '/') = false := by
    have : c₁ ≠ '/' := by
      intro hc
      rw [hc] at h1
      exact absurd h1 (by decide)
    simp [this]
  have hpfx : ∀ (b : Char) (s : List Char), c₀ ≠ b → sp.isPrefixOf (b :: s) = false := by
    intro b s hne
    rw [hsp]
    simp [List.isPrefixOf, hne]
  have hpfx2 : ∀ s : List Char, sp.isPrefixOf ('<' :: '/' :: s) = false := by
    intro s
    rw [hsp]
    simp [List.isPrefixOf, hc1slash]
  show occursIn sp ('\n' :: '<' :: '/' :: 'b' :: 'o' :: 'd' :: 'y' :: '>' :: suf) = false
  apply occursIn_cons_false (hpfx '\n' _ (hc0ne '\n' (by decide)))
  apply occursIn_cons_false (hpfx2 _)
  apply occursIn_cons_false (hpfx '/' _ (hc0ne '/' (by decide)))
  apply occursIn_cons_false (hpfx 'b' _ (hc0ne 'b' (by decide)))
  apply occursIn_cons_false (hpfx 'o' _ (hc0ne 'o' (by decide)))
  apply occursIn_cons_false (hpfx 'd' _ (hc0ne 'd' (by decide)))
  apply occursIn_cons_false (hpfx 'y' _ (hc0ne 'y' (by decide)))
  apply occursIn_cons_false (hpfx '>' _ (hc0ne '>' (by decide)))
  exact hsuf

/-- **C4 (counterexample).**  A patched shielded document with zero script
spans and edit instructions holding exactly one literal script span — one
whose opening tag carries an attribute, `<script src="x">` — produce a
final document that does not contain the span at all: the fallback guard
tests for the literal text `<script>`, which an attributed opening tag
fails. -/
theorem c4_script_fallback_counterexample :
    findScripts ("<body></body>".data) = []
    ∧ findScripts ("<script src=\"x\">a</script>".data) = ["<script src=\"x\">a</script>".data]
    ∧ countOcc ("<script src=\"x\">a</script>".data)
        (apply_edit_pipeline ("<body></body>".data) ("<script src=\"x\">a</script>".data) []) = 0 := by
  refine ⟨by decide, by decide, by decide⟩

/-- **C4 (amended).**  If the patched shielded document contains zero
script spans, the edit instructions contain exactly one literal script
span, the lower-cased instructions contain the literal text `<script>`,
the span does not already occur in the restored document, the restored
document contains exactly one closing body marker, and the span's only
closing script tag is its final one, then the final document is the
restored document with the span inserted (followed by a newline)
immediately before the closing body marker, and the span occurs exactly
once in it. -/
theorem c4_script_fallback_amended (new_processed edits : List Char)
    (reps : List (List Char × List Char)) (sp : List Char)
    (h0 : findScripts new_processed = [])
    (h1 : findScripts edits = [sp])
    (h2 : occursIn scriptOpenLit (lowerL edits) = true)
    (h3 : occursIn sp (replacement_apply new_processed reps) = false)
    (h4 : countOcc bodyClose (replacement_apply new_processed reps) = 1)
    (h5 : occursIn (lowerL (closeTagOf .script)) (lowerL (sp.take (sp.length - 1))) = false) :
    ∃ pre suf,
      replacement_apply new_processed reps = pre ++ bodyClose ++ suf
      ∧ apply_edit_pipeline new_processed edits reps = pre ++ (sp ++ '\n' :: bodyClose) ++ suf
      ∧ countOcc sp (apply_edit_pipeline new_processed edits reps) = 1 := by
  -- structural facts about the span
  have hmem : sp ∈ findScripts edits := by rw [h1]; exact List.mem_cons_self _ _
  rcases findAllGo_mem hmem with ⟨s', n, htm, hsp_take⟩
  have htm' : tryMatchContainer (openTagOf .script) (closeTagOf .script) s' = some n := htm
  rcases tryMatchContainer_shape htm' with ⟨hnle, hcl1, hpfxTake, y, cv, hycv, hcvlen, hcvlow⟩
  rw [← hsp_take] at hpfxTake hycv
  rcases span_head_shape hpfxTake with ⟨c₀, c₁, tl, hsp2, hl0, hl1⟩
  have hhead1 : ∃ c₀ tl, sp = c₀ :: tl ∧ lowerChar c₀ = '<' := ⟨c₀, c₁ :: tl, hsp2, hl0⟩
  have hcv' : ∃ y cv, sp = y ++ cv ∧ cv.length = 9 ∧ lowerL cv = "</script>".data := by
    refine ⟨y, cv, hycv, ?_, ?_⟩
    · rw [hcvlen]; decide
    · rw [hcvlow]; decide
  have honly' : occursIn ("</script>".data) (lowerL (sp.take (sp.length - 1))) = false := by
    rw [show ("</script>".data) = lowerL (closeTagOf .script) from by decide]
    exact h5
  have hspne : sp ≠ [] := by rw [hsp2]; simp
  -- split the restored document at its unique closing body marker
  rcases countOcc_one_elim (show bodyClose ≠ [] from by decide) h4 with ⟨pre, suf, hsf, hnomore⟩
  have hnh : replacement_apply new_processed reps = pre ++ bodyClose ++ suf :=
    splitFirst_spec hsf
  have hpipe : apply_edit_pipeline new_processed edits reps =
      pyReplace (replacement_apply new_processed reps) bodyClose (sp ++ '\n' :: bodyClose) := by
    simp only [apply_edit_pipeline, h0, h1, List.foldl_nil, List.foldl_cons, List.length_nil,
      h2, h3, eq_self_iff_true, and_self, if_true, true_and, and_true]
  have hrepl :
      pyReplace (replacement_apply new_processed reps) bodyClose (sp ++ '\n' :: bodyClose)
        = pre ++ (sp ++ '\n' :: bodyClose) ++ suf := by
    rw [pyReplace_split _ (show bodyClose ≠ [] from by decide) hsf,
      pyReplace_of_not_occurs _ hnomore]
  refine ⟨pre, suf, hnh, ?_, ?_⟩
  · rw [hpipe, hrepl]
  · -- the span occurs exactly once in the final document
    have hpreocc : occursIn sp pre = false := by
      cases hx : occursIn sp pre with
      | false => rfl
      | true =>
        exfalso
        have hoccall : occursIn sp (replacement_apply new_processed reps) = true := by
          rw [hnh]
          exact occursIn_of_infix ⟨[], bodyClose ++ suf, by simp [List.append_assoc]⟩ hx
        rw [h3] at hoccall
        exact Bool.noConfusion hoccall
    have hsufocc : occursIn sp suf = false := by
      cases hx : occursIn sp suf with
      | false => rfl
      | true =>
        exfalso
        have hoccall : occursIn sp (replacement_apply new_processed reps) = true := by
          rw [hnh]
          exact occursIn_of_infix ⟨pre ++ bodyClose, [], by simp [List.append_assoc]⟩ hx
        rw [h3] at hoccall
        exact Bool.noConfusion hoccall
    have htail : occursIn sp ('\n' :: bodyClose ++ suf) = false :=
      not_occursIn_tail ⟨c₀, c₁, tl, hsp2, hl0, hl1⟩ hsufocc
    have hff : findFirst sp (pre ++ (sp ++ ('\n' :: bodyClose ++ suf))) = some pre.length :=
      findFirst_span_boundary hhead1 hcv' honly' pre hpreocc
    have h1t : (pre ++ (sp ++ ('\n' :: bodyClose ++ suf))).take pre.length = pre :=
      List.take_left' rfl
    have h1d : (pre ++ (sp ++ ('\n' :: bodyClose ++ suf))).drop (pre.length + sp.length)
        = '\n' :: bodyClose ++ suf := by
      rw [← List.append_assoc]
      exact List.drop_left' (by simp)
    have hsf2 : splitFirst sp (pre ++ (sp ++ ('\n' :: bodyClose ++ suf)))
        = some (pre, '\n' :: bodyClose ++ suf) := by
      unfold splitFirst
      rw [hff, Option.map_some']
      rw [h1t, h1d]
    have hfinassoc : pre ++ (sp ++ '\n' :: bodyClose) ++ suf
        = pre ++ (sp ++ ('\n' :: bodyClose ++ suf)) := by
      simp [List.append_assoc]
    rw [hpipe, hrepl, hfinassoc, countOcc_split hspne hsf2,
      countOcc_of_not_occurs htail]

theorem c4_script_fallback_amended_witness :
    ∃ pre suf,
      replacement_apply c4WDoc [] = pre ++ bodyClose ++ suf
      ∧ apply_edit_pipeline c4WDoc c4WEdits [] = pre ++ (c4WEdits ++ '\n' :: bodyClose) ++ suf
      ∧ countOcc c4WEdits (apply_edit_pipeline c4WDoc c4WEdits []) = 1 :=
  c4_script_fallback_amended c4WDoc c4WEdits [] c4WEdits (by decide) (by decide) (by decide)
    (by decide) (by decide) (by decide)

theorem assocLookup_setKey_self {α : Type} (d : List (String × α)) (k : String) (v : α) :
    assocLookup (setKey d k v) k = some v := by
  induction d with
  | nil => simp [setKey, assocLookup]
  | cons e rest ih =>
    obtain ⟨k', w⟩ := e
    by_cases hk : k' = k
    · simp [setKey, assocLookup, hk]
    · simp [setKey, assocLookup, hk, ih]

theorem assocLookup_setKey_other {α : Type} (d : List (String × α)) (k k' : String) (v : α)
    (h : k' ≠ k) : assocLookup (setKey d k v) k' = assocLookup d k' := by
  induction d with
  | nil => simp [setKey, assocLookup, Ne.symm h]
  | cons e rest ih =>
    obtain ⟨k₀, w⟩ := e
    by_cases hk : k₀ = k
    · subst hk
      have hne : ¬(k₀ = k') := fun hh => h hh.symm
      simp [setKey, assocLookup, hne]
    · simp [setKey, assocLookup, hk, ih]

theorem assocLookup_dictUpdate_not_mem {α : Type} (upds : List (String × α)) :
    ∀ (d : List (String × α)) (k : String), (∀ e ∈ upds, e.1 ≠ k) →
      assocLookup (dictUpdate d upds) k = assocLookup d k := by
  induction upds with
  | nil => intro d k _; rfl
  | cons u us ih =>
    intro d k h
    have hstep : dictUpdate d (u :: us) = dictUpdate (setKey d u.1 u.2) us := rfl
    rw [hstep, ih _ _ (fun e he => h e (List.mem_cons_of_mem u he)),
      assocLookup_setKey_other _ _ _ _ ?_]
    intro hk
    exact h u (List.mem_cons_self u us) hk.symm

/-- **C3 (counterexample).**  After a successful edit application the
stored session's status is `"ready"`, not `"applied_edit"`, and
`current_iteration` is still `0`, not incremented to `1`. -/
theorem c3_apply_edit_counterexample :
    ((storedRecord (apply_edit "s1" c3Session "msg" "edit text" "<body>new</body>" "t1" c3Store)
        "s1").map (fun rec => (getStrKey rec "status", getIntKey rec "current_iteration")))
      = some (some "ready", some 0)
    ∧ ("ready" : String) ≠ "applied_edit" ∧ (0 : Int) ≠ 0 + 1 := by
  refine ⟨by decide, by decide, by decide⟩

/-- **C3 (amended).**  After every successful edit application (the patch
call succeeded and the session record carries the needed keys), the agent
turn is appended to the conversation history, the session status is set
to `"ready"` (not `applied_edit`), `current_iteration` is left untouched,
and `current_html` / `current_processed_html` are updated to the edit
pipeline's two outputs (restored document and patched shielded
document). -/
theorem c3_apply_edit_amended (session_id : String)
    (session rec0 : List (String × PyVal))
    (message edits patch_output now : String) (store : List (String × PyVal))
    (history : List PyVal) (reps : List (String × PyVal)) (cph : PyVal)
    (hcph : assocLookup session "current_processed_html" = some cph)
    (hreps : assocLookup session "replacements" = some (.pyDict reps))
    (hhist : assocLookup session "conversation_history" = some (.pyList history))
    (hdb : assocLookup store session_id = some (.pyDict rec0)) :
    ∃ rec,
      apply_edit session_id session message edits patch_output now store =
        .ok (⟨"success", message,
          some (String.mk (apply_edit_pipeline patch_output.data edits.data
            (reps.map (fun e => (e.1.data, pyStrData e.2)))))⟩,
          setKey store session_id (.pyDict rec))
      ∧ assocLookup rec "status" = some (.pyStr "ready")
      ∧ assocLookup rec "current_iteration" = assocLookup rec0 "current_iteration"
      ∧ assocLookup rec "current_html" = some (.pyStr (String.mk (apply_edit_pipeline
          patch_output.data edits.data (reps.map (fun e => (e.1.data, pyStrData e.2))))))
      ∧ assocLookup rec "current_processed_html" = some (.pyStr patch_output)
      ∧ assocLookup rec "conversation_history" = some (.pyList (history ++
          [.pyDict [("role", .pyStr "agent"), ("content", .pyStr message),
            ("timestamp", .pyStr now), ("edits", .pyStr edits)]])) := by
  have hupd : update_session session_id
      [("current_html", .pyStr (String.mk (apply_edit_pipeline patch_output.data edits.data
          (reps.map (fun e => (e.1.data, pyStrData e.2)))))),
       ("current_processed_html", .pyStr patch_output),
       ("conversation_history", .pyList (history ++
          [.pyDict [("role", .pyStr "agent"), ("content", .pyStr message),
            ("timestamp", .pyStr now), ("edits", .pyStr edits)]])),
       ("status", .pyStr "ready"),
       ("message", .pyStr message)] now store =
      (true, setKey store session_id (.pyDict (setKey (dictUpdate rec0
        [("current_html", .pyStr (String.mk (apply_edit_pipeline patch_output.data edits.data
            (reps.map (fun e => (e.1.data, pyStrData e.2)))))),
         ("current_processed_html", .pyStr patch_output),
         ("conversation_history", .pyList (history ++
            [.pyDict [("role", .pyStr "agent"), ("content", .pyStr message),
              ("timestamp", .pyStr now), ("edits", .pyStr edits)]])),
         ("status", .pyStr "ready"),
         ("message", .pyStr message)]) "updated_at" (.pyStr now)))) := by
    simp only [update_session, hdb]
  refine ⟨setKey (dictUpdate rec0
      [("current_html", .pyStr (String.mk (apply_edit_pipeline patch_output.data edits.data
          (reps.map (fun e => (e.1.data, pyStrData e.2)))))),
       ("current_processed_html", .pyStr patch_output),
       ("conversation_history", .pyList (history ++
          [.pyDict [("role", .pyStr "agent"), ("content", .pyStr message),
            ("timestamp", .pyStr now), ("edits", .pyStr edits)]])),
       ("status", .pyStr "ready"),
       ("message", .pyStr message)]) "updated_at" (.pyStr now), ?_, ?_, ?_, ?_, ?_, ?_⟩
  · simp only [apply_edit, hcph, hreps, hhist]
    rw [hupd]
  all_goals {
    simp only [dictUpdate, List.foldl_cons, List.foldl_nil]
    first
    | (rw [assocLookup_setKey_other _ _ _ _ (by decide),
        assocLookup_setKey_other _ _ _ _ (by decide),
        assocLookup_setKey_self])
    | (rw [assocLookup_setKey_other _ _ _ _ (by decide),
        assocLookup_setKey_other _ _ _ _ (by decide),
        assocLookup_setKey_other _ _ _ _ (by decide),
        assocLookup_setKey_other _ _ _ _ (by decide),
        assocLookup_setKey_other _ _ _ _ (by decide),
        assocLookup_setKey_other _ _ _ _ (by decide)])
    | (rw [assocLookup_setKey_other _ _ _ _ (by decide),
        assocLookup_setKey_other _ _ _ _ (by decide),
        assocLookup_setKey_other _ _ _ _ (by decide),
        assocLookup_setKey_other _ _ _ _ (by decide),
        assocLookup_setKey_other _ _ _ _ (by decide),
        assocLookup_setKey_self])
    | (rw [assocLookup_setKey_other _ _ _ _ (by decide),
        assocLookup_setKey_other _ _ _ _ (by decide),
        assocLookup_setKey_other _ _ _ _ (by decide),
        assocLookup_setKey_other _ _ _ _ (by decide),
        assocLookup_setKey_self])
    | (rw [assocLookup_setKey_other _ _ _ _ (by decide),
        assocLookup_setKey_other _ _ _ _ (by decide),
        assocLookup_setKey_other _ _ _ _ (by decide),
        assocLookup_setKey_self])
  }

theorem c3_apply_edit_amended_witness :
    ∃ rec,
      apply_edit "s1" c3Session "done" "edit" "<body>x</body>" "t1" c3Store =
        .ok (⟨"success", "done", some (String.mk (apply_edit_pipeline "<body>x</body>".data
          "edit".data (([] : List (String × PyVal)).map
            (fun e => (e.1.data, pyStrData e.2)))))⟩,
          setKey c3Store "s1" (.pyDict rec))
      ∧ assocLookup rec "status" = some (.pyStr "ready")
      ∧ assocLookup rec "current_iteration" = assocLookup c3Session "current_iteration"
      ∧ assocLookup rec "current_html" = some (.pyStr (String.mk (apply_edit_pipeline
          "<body>x</body>".data "edit".data (([] : List (String × PyVal)).map
            (fun e => (e.1.data, pyStrData e.2))))))
      ∧ assocLookup rec "current_processed_html" = some (.pyStr "<body>x</body>")
      ∧ assocLookup rec "conversation_history" = some (.pyList (([] : List PyVal) ++
          [.pyDict [("role", .pyStr "agent"), ("content", .pyStr "done"),
            ("timestamp", .pyStr "t1"), ("edits", .pyStr "edit")]])) :=
  c3_apply_edit_amended "s1" c3Session c3Session "done" "edit" "<body>x</body>" "t1" c3Store
    [] [] (.pyStr "<body></body>") rfl rfl rfl rfl

/-- **C9.**  A record built by `create_agent_session` stores an
`iterations` list and no `conversation_history` key, so every subsequent
`process_user_request` call — whatever the query, screenshot, timestamp
or LLM step — hits the `KeyError` on `session["conversation_history"]`,
is caught by the top-level handler, and returns status `"error"` with the
stringified `KeyError`, leaving the stored record unchanged. -/
theorem c9_created_sessions_always_error (session_id html query : String) (mi : PyVal)
    (now query2 now2 : String) (screenshot : Option String)
    (llmStep : List (String × PyVal) → ProcessingResult × List (String × PyVal))
    (store : List (String × PyVal)) :
    process_user_request session_id query2 screenshot now2 llmStep
        (create_agent_session session_id html query mi now store).2 =
      (⟨"error", "Error: " ++ "\x27conversation_history\x27", none⟩,
        (create_agent_session session_id html query mi now store).2)
    ∧ assocLookup (create_agent_session session_id html query mi now store).1
        "conversation_history" = none
    ∧ assocLookup (create_agent_session session_id html query mi now store).1
        "iterations" = some (.pyList []) := by
  have hsk : (create_agent_session session_id html query mi now store).2 =
      setKey store session_id (.pyDict (create_agent_session session_id html query mi now store).1) :=
    rfl
  have hdb : assocLookup (create_agent_session session_id html query mi now store).2 session_id =
      some (.pyDict (create_agent_session session_id html query mi now store).1) := by
    rw [hsk]; exact assocLookup_setKey_self _ _ _
  have hnohist : assocLookup (create_agent_session session_id html query mi now store).1
      "conversation_history" = none := rfl
  refine ⟨?_, hnohist, rfl⟩
  simp only [process_user_request, add_user_message, hdb, hnohist]

/-- **C10.**  The record stored by the session-creation route has
`max_iterations` equal to the request's `initial_screenshot` value
(`None` when no screenshot is supplied), carries no `initial_screenshot`
key, and the default of 5 applies only when the argument is omitted
(`create_agent_session_default`). -/
theorem c10_screenshot_becomes_max_iterations (req : StartAgentRequest)
    (session_id now : String) (store : List (String × PyVal)) :
    assocLookup (start_agent_session req session_id now store).1 "max_iterations" =
      some (screenshotVal req.initial_screenshot)
    ∧ assocLookup (start_agent_session { req with initial_screenshot := none }
        session_id now store).1 "max_iterations" = some .pyNone
    ∧ assocLookup (start_agent_session req session_id now store).1 "initial_screenshot" = none
    ∧ assocLookup (create_agent_session_default session_id req.html req.query now store).1
        "max_iterations" = some (.pyInt 5) :=
  ⟨rfl, rfl, rfl, rfl⟩

/-- **C5.**  When the decoded object provides `edits` and/or `reasoning`
(at least one truthy), the result is `completed` with `edits` cleared
when the edits value contains the literal sentinel, and `applied_edit`
carrying the edits otherwise. -/
theorem c5_sentinel_detection (text : String) (result : List (String × String))
    (h : ¬(dictGet result "edits" "" = "" ∧ dictGet result "reasoning" "" = "")) :
    (forward_postdecode text (.ok result)).1 =
      if occursIn sentinel.data (dictGet result "edits" "").data
      then ⟨"completed", dictGet result "reasoning" "", none⟩
      else ⟨"applied_edit", dictGet result "reasoning" "", some (dictGet result "edits" "")⟩ := by
  by_cases hocc : occursIn sentinel.data (dictGet result "edits" "").data
  · simp [forward_postdecode, h, hocc]
  · simp [forward_postdecode, h, hocc]

theorem c5_sentinel_detection_witness :
    (¬(dictGet [("edits", "a GENERATION_COMPLETE b"), ("reasoning", "r")] "edits" "" = ""
        ∧ dictGet [("edits", "a GENERATION_COMPLETE b"), ("reasoning", "r")] "reasoning" "" = ""))
    ∧ (forward_postdecode "raw" (.ok [("edits", "a GENERATION_COMPLETE b"), ("reasoning", "r")])).1 =
      if occursIn sentinel.data
          (dictGet [("edits", "a GENERATION_COMPLETE b"), ("reasoning", "r")] "edits" "").data
      then ⟨"completed",
        dictGet [("edits", "a GENERATION_COMPLETE b"), ("reasoning", "r")] "reasoning" "", none⟩
      else ⟨"applied_edit",
        dictGet [("edits", "a GENERATION_COMPLETE b"), ("reasoning", "r")] "reasoning" "",
        some (dictGet [("edits", "a GENERATION_COMPLETE b"), ("reasoning", "r")] "edits" "")⟩ :=
  ⟨by decide, c5_sentinel_detection "raw"
    [("edits", "a GENERATION_COMPLETE b"), ("reasoning", "r")] (by decide)⟩

theorem jsonErrorText_ne_missingFieldsMsg (m : String) (l c p : Nat) :
    jsonErrorText m l c p ≠ missingFieldsMsg := by
  intro h
  have hd : (jsonErrorText m l c p).data.getLast? = missingFieldsMsg.data.getLast? :=
    congrArg (fun s => s.data.getLast?) h
  have h1 : (jsonErrorText m l c p).data.getLast? = some ')' := by
    show (m.data ++ ": line ".data ++ natDigits l ++ " column ".data
      ++ natDigits c ++ " (char ".data ++ natDigits p ++ [')']).getLast? = some ')'
    rw [List.getLast?_concat]
  rw [hd] at h1
  have h2 : missingFieldsMsg.data.getLast? = some 's' := rfl
  rw [h2] at h1
  exact absurd h1 (by decide)

/-- **C6.**  A successful decode whose object has neither field yields
status `"error"` with the missing-fields message and a dump of the raw
text with that reason; a decode failure yields status `"error"` with the
stringified decode error and a dump of the raw text with that reason;
and the two messages always differ (a `json.JSONDecodeError` rendering
ends in `)`, the missing-fields text in `s`). -/
theorem c6_parse_failure_paths (text e : String) (result : List (String × String))
    (hmiss : dictGet result "edits" "" = "" ∧ dictGet result "reasoning" "" = "") :
    forward_postdecode text (.ok result) =
        (⟨"error", "Invalid JSON response from AI: " ++ missingFieldsMsg, none⟩,
          some ⟨missingFieldsMsg, text⟩)
    ∧ forward_postdecode text (.error e) =
        (⟨"error", "Invalid JSON response from AI: " ++ e, none⟩, some ⟨e, text⟩)
    ∧ (e = jsonErrorText "Expecting value" 1 1 0 →
        "Invalid JSON response from AI: " ++ e ≠
          "Invalid JSON response from AI: " ++ missingFieldsMsg) := by
  refine ⟨by simp [forward_postdecode, hmiss], rfl, ?_⟩
  intro he hcontra
  have hdata := congrArg String.data hcontra
  rw [String.data_append, String.data_append] at hdata
  have hsuffix : e.data = missingFieldsMsg.data := List.append_cancel_left hdata
  exact jsonErrorText_ne_missingFieldsMsg "Expecting value" 1 1 0
    (he ▸ String.ext hsuffix)

theorem c6_parse_failure_paths_witness :
    (dictGet [("other", "x")] "edits" "" = "" ∧ dictGet [("other", "x")] "reasoning" "" = "")
    ∧ (forward_postdecode "raw" (.ok [("other", "x")]) =
        (⟨"error", "Invalid JSON response from AI: " ++ missingFieldsMsg, none⟩,
          some ⟨missingFieldsMsg, "raw"⟩)
      ∧ forward_postdecode "raw" (.error (jsonErrorText "Expecting value" 1 1 0)) =
        (⟨"error", "Invalid JSON response from AI: " ++ jsonErrorText "Expecting value" 1 1 0,
            none⟩,
          some ⟨jsonErrorText "Expecting value" 1 1 0, "raw"⟩)
      ∧ (jsonErrorText "Expecting value" 1 1 0 = jsonErrorText "Expecting value" 1 1 0 →
          "Invalid JSON response from AI: " ++ jsonErrorText "Expecting value" 1 1 0 ≠
            "Invalid JSON response from AI: " ++ missingFieldsMsg)) :=
  ⟨by decide, c6_parse_failure_paths "raw" (jsonErrorText "Expecting value" 1 1 0)
    [("other", "x")] (by decide)⟩

theorem assocLookup_filter_ne {α : Type} (d : List (String × α)) (k : String) :
    assocLookup (d.filter (fun e => e.1 != k)) k = none := by
  induction d with
  | nil => rfl
  | cons e rest ih =>
    obtain ⟨k₀, v⟩ := e
    by_cases hk : k₀ = k
    · have hb : (k₀ != k) = false := by simp [hk]
      simp [List.filter, hb, ih]
    · have hb : (k₀ != k) = true := by simp [hk]
      simp [List.filter, hb, assocLookup, hk, ih]

/-- **C8.**  `send_message` returns `true` exactly when a connection
exists and transmission succeeds; it returns `false` when no connection
exists (state untouched) or when transmission fails, in which case the
session is disconnected first — afterwards neither dict holds the
session.  Every case returns a value: the operation never raises. -/
theorem c8_send_message_outcomes (st : WSState) (sid : String) (t : TransmitOutcome) :
    ((send_message st sid t).1 = true ↔
      (assocLookup st.connections sid).isSome = true ∧ t = .delivered)
    ∧ (send_message st sid .delivered).2 =
        (if (assocLookup st.connections sid).isSome then st else st)
    ∧ (send_message st sid .failed).2 =
        (if (assocLookup st.connections sid).isSome then ws_disconnect st sid else st)
    ∧ assocLookup (ws_disconnect st sid).connections sid = none
    ∧ (ws_disconnect st sid).locks.contains sid = false := by
  refine ⟨?_, ?_, ?_, assocLookup_filter_ne st.connections sid, ?_⟩
  · by_cases hc : (assocLookup st.connections sid).isSome
    · cases t <;> simp [send_message, hc]
    · simp [send_message, hc]
  · by_cases hc : (assocLookup st.connections sid).isSome <;> simp [send_message, hc]
  · by_cases hc : (assocLookup st.connections sid).isSome <;> simp [send_message, hc]
  · simp [ws_disconnect, List.contains_eq_any_beq, List.any_filter]

/-- **C2.**  If the Oracle only ever returns `applied_edit` results
(never `completed` — and the run never errors), then from any
non-terminal state, with enough fuel for the remaining iterations, the
session ends in status `"completed"` with the fixed
"reached maximum iterations" message — and hence never in `"error"`. -/
theorem c2_max_iterations_completes (oracle : SpecSession → OracleResult)
    (obs : SpecSession → Option String) (fuel : Nat) (s : SpecSession)
    (hstatus : s.status ≠ "completed" ∧ s.status ≠ "error")
    (horacle : ∀ t, isAppliedR (oracle t) = true)
    (hfuel : 2 * (s.max_iterations - s.current_iteration)
      + (if s.waiting then 1 else 0) + 1 ≤ fuel) :
    (run_agent_session oracle obs fuel s).status = "completed"
    ∧ (run_agent_session oracle obs fuel s).message = maxIterationsMessage
    ∧ (run_agent_session oracle obs fuel s).status ≠ "error" := by
  induction fuel generalizing s with
  | zero =>
    exfalso
    omega
  | succ fuel ih =>
    have hterm : ¬(s.status = "completed" ∨ s.status = "error") := by
      intro h; rcases h with h | h
      · exact hstatus.1 h
      · exact hstatus.2 h
    by_cases hmax : s.max_iterations ≤ s.current_iteration
    · have hrun : run_agent_session oracle obs (fuel + 1) s =
          { s with status := "completed", message := maxIterationsMessage } := by
        simp only [run_agent_session, if_neg hterm, if_pos hmax]
      rw [hrun]
      exact ⟨rfl, rfl, by simp⟩
    · have hlt : s.current_iteration < s.max_iterations := Nat.lt_of_not_le hmax
      by_cases hwait : s.waiting
      · have hfuel2 : 2 * (s.max_iterations - s.current_iteration) + 1 ≤ fuel := by
          rw [if_pos hwait] at hfuel; omega
      -- consume the waiting step, with either observation outcome
        cases hobs : obs s with
        | some v =>
          have hrun : run_agent_session oracle obs (fuel + 1) s =
              run_agent_session oracle obs fuel
                { s with
                  waiting := false
                  status := "processing"
                  history := s.history ++ [v] } := by
            simp only [run_agent_session, if_neg hterm, if_neg hmax, if_pos hwait, hobs]
          rw [hrun]
          exact ih _ ⟨by simp, by simp⟩ (by simp; omega)
        | none =>
          have hrun : run_agent_session oracle obs (fuel + 1) s =
              run_agent_session oracle obs fuel { s with waiting := false } := by
            simp only [run_agent_session, if_neg hterm, if_neg hmax, if_pos hwait, hobs]
          rw [hrun]
          exact ih _ ⟨hstatus.1, hstatus.2⟩ (by simp; omega)
      · have hfuel2 : 2 * (s.max_iterations - s.current_iteration) ≤ fuel := by
          rw [if_neg hwait] at hfuel; omega
        cases hor : oracle s with
        | completedR m => exact absurd (horacle s) (by rw [hor]; simp [isAppliedR])
        | errorR m => exact absurd (horacle s) (by rw [hor]; simp [isAppliedR])
        | appliedR m e =>
          have hrun : run_agent_session oracle obs (fuel + 1) s =
              run_agent_session oracle obs fuel
                { s with
                  current_iteration := s.current_iteration + 1
                  status := "applied_edit"
                  message := m
                  waiting := true
                  history := s.history ++ [e]
                  events := s.events ++ ["apply_edit"] } := by
            simp only [run_agent_session, if_neg hterm, if_neg hmax, if_neg hwait, hor]
          rw [hrun]
          exact ih _ ⟨by simp, by simp⟩ (by simp; omega)

theorem c2_max_iterations_completes_witness :
    ((⟨"created", "", 0, 1, false, [], []⟩ : SpecSession).status ≠ "completed"
        ∧ (⟨"created", "", 0, 1, false, [], []⟩ : SpecSession).status ≠ "error")
    ∧ ((run_agent_session (fun _ => .appliedR "m" "e") (fun _ => none) 4
        ⟨"created", "", 0, 1, false, [], []⟩).status = "completed"
      ∧ (run_agent_session (fun _ => .appliedR "m" "e") (fun _ => none) 4
        ⟨"created", "", 0, 1, false, [], []⟩).message = maxIterationsMessage
      ∧ (run_agent_session (fun _ => .appliedR "m" "e") (fun _ => none) 4
        ⟨"created", "", 0, 1, false, [], []⟩).status ≠ "error") :=
  ⟨⟨by decide, by decide⟩,
    c2_max_iterations_completes (fun _ => .appliedR "m" "e") (fun _ => none) 4
      ⟨"created", "", 0, 1, false, [], []⟩ ⟨by decide, by decide⟩ (fun _ => rfl) (by decide)⟩

end Anyheart

